import Mathlib

/-!
Verification development for the AethricCrawler repository (src/Crawler.py).

The crawl engine (class `Crawler` and its subclass `SpellReader`) is modelled
as a small-step transition system over an explicit state record.  Workers run
concurrently under asyncio, but every mutation of the shared state
(`seen`, `done`, `todo`, `total`) happens between true suspension points of
the single-threaded event loop, so each such mutation block is one atomic
step of the relation.  Ghost fields (`enqueued`, `dequeued`, `succeeded`,
`failed`) record the histories that the specification talks about; they are
write-only logs and do not influence the dynamics.
-/

namespace AethricCrawler

/-- The two Visit-Action variants: class `Crawler` (link discovery, pagination
marker predicate) and class `SpellReader` (structured extraction, no content
predicate). -/
inductive Variant
  | default
  | spell
deriving DecidableEq

/-- `pat` occurs as a contiguous substring of `l` (Python's `pat in s`). -/
def listHasSub (pat : List Char) : List Char → Bool
  | [] => pat.isEmpty
  | c :: cs => pat.isPrefixOf (c :: cs) || listHasSub pat cs

/-- The pagination-marker test in `Crawler.put_todo`: `'?p=' in url`. -/
def hasMarker (u : String) : Bool := listHasSub "?p=".toList u.toList

/-- Shared crawl state of one `Crawler` instance, plus ghost history fields.
`seen`/`doneS` are Python sets; `todo` is the FIFO queue contents (front =
head); `inflight` are addresses dequeued but not yet acknowledged via
`task_done`. -/
structure CrawlState where
  seen : Finset String
  doneS : Finset String
  todo : List String
  inflight : List String
  total : Nat
  enqueued : List String
  dequeued : List String
  succeeded : List String
  failed : List String
deriving DecidableEq

/-- Effect of the two final lines of `put_todo` when the push happens:
`self.total += 1; await self.todo.put(url)` (plus the ghost log). -/
def pushState (s : CrawlState) (u : String) : CrawlState :=
  { s with total := s.total + 1, todo := s.todo ++ [u], enqueued := s.enqueued ++ [u] }

/-- Pushing a batch of addresses; `pushState` iterated. -/
def pushMany (s : CrawlState) (add : List String) : CrawlState :=
  { s with total := s.total + add.length, todo := s.todo ++ add,
           enqueued := s.enqueued ++ add }

/-- The per-variant admission predicate that `put_todo` applies beyond the
counter check ('?p=' containment for `Crawler`, nothing for `SpellReader`). -/
def pushPredB (v : Variant) (u : String) : Bool :=
  match v with
  | .default => hasMarker u
  | .spell => true

/-- `Crawler.put_todo` (lines 181-188) resp. `SpellReader.put_todo`
(lines 224-229): guard on the discovery counter, then (default variant only)
on the pagination marker, then increment the counter and enqueue. -/
def putTodo (v : Variant) (limit : Nat) (s : CrawlState) (u : String) : CrawlState :=
  match v with
  | .default =>
    if limit ≤ s.total then s
    else if hasMarker u then pushState s u
    else s
  | .spell =>
    if limit ≤ s.total then s
    else pushState s u

/-- The `for url in new: await self.put_todo(url)` loop of `on_found_links`. -/
def putList (v : Variant) (limit : Nat) (s : CrawlState) (l : List String) : CrawlState :=
  l.foldl (putTodo v limit) s

/-- `Crawler.on_found_links` (lines 172-179): `new = urls - self.seen`,
`self.seen.update(new)`, then `put_todo` for each new address.  The argument
list is one enumeration of the Python set `urls`; set difference is modelled
by filtering out seen elements and deduplicating. -/
def onFoundLinks (v : Variant) (limit : Nat) (s : CrawlState) (urls : List String) :
    CrawlState :=
  let new := (urls.filter (fun u => decide (u ∉ s.seen))).dedup
  putList v limit { s with seen := s.seen ∪ new.toFinset } new

/-- The state right after `Crawler.__init__`: empty sets, empty queue,
`total = 0`. -/
def initState : CrawlState := ⟨∅, ∅, [], [], 0, [], [], [], []⟩

/-- State after the first line of `Crawler.run`:
`await self.on_found_links(self.start_urls)`. -/
def startState (v : Variant) (limit : Nat) (seeds : List String) : CrawlState :=
  onFoundLinks v limit initState seeds

/-- A worker performing `url = await self.todo.get()` on a nonempty queue. -/
def dequeueState (s : CrawlState) (u : String) (t : List String) : CrawlState :=
  { s with todo := t, inflight := s.inflight ++ [u], dequeued := s.dequeued ++ [u] }

/-- A successful visit of `u` (body of `Crawler.crawl` after the fetch,
lines 158-165, plus the `finally: self.todo.task_done()`): the found links
are admitted via `on_found_links`, `u` enters `done`, and the dequeue is
acknowledged. -/
def finishOk (v : Variant) (limit : Nat) (s : CrawlState) (u : String)
    (links : List String) : CrawlState :=
  let s1 := onFoundLinks v limit s links
  { s1 with doneS := insert u s1.doneS, succeeded := s1.succeeded ++ [u],
            inflight := s1.inflight.erase u }

/-- A failed visit of `u` (`except Exception: pass` in `process_one`,
lines 145-149): no state change besides the acknowledgment. -/
def finishFail (s : CrawlState) (u : String) : CrawlState :=
  { s with inflight := s.inflight.erase u, failed := s.failed ++ [u] }

/-- One atomic step of the crawl: a dequeue, a successful visit with an
arbitrary set of parsed links, or a failed visit. -/
inductive Step (v : Variant) (limit : Nat) : CrawlState → CrawlState → Prop
  | dequeue (s : CrawlState) (u : String) (t : List String) (h : s.todo = u :: t) :
      Step v limit s (dequeueState s u t)
  | ok (s : CrawlState) (u : String) (links : List String) (h : u ∈ s.inflight) :
      Step v limit s (finishOk v limit s u links)
  | fail (s : CrawlState) (u : String) (h : u ∈ s.inflight) :
      Step v limit s (finishFail s u)

/-- States a crawl with the given variant, cap and seed list can be in. -/
def Reachable (v : Variant) (limit : Nat) (seeds : List String) (s : CrawlState) : Prop :=
  Relation.ReflTransGen (Step v limit) (startState v limit seeds) s

/-! ### Basic lemmas about admission -/

theorem pushMany_nil (s : CrawlState) : pushMany s [] = s := by
  cases s; simp [pushMany]

theorem pushMany_pushMany (s : CrawlState) (a b : List String) :
    pushMany (pushMany s a) b = pushMany s (a ++ b) := by
  cases s; simp [pushMany, List.append_assoc, Nat.add_assoc]

theorem pushState_eq_pushMany (s : CrawlState) (u : String) :
    pushState s u = pushMany s [u] := by
  cases s; simp [pushState, pushMany]

theorem putTodo_cases (v : Variant) (limit : Nat) (s : CrawlState) (u : String) :
    putTodo v limit s u = s ∨
      (s.total < limit ∧ pushPredB v u = true ∧ putTodo v limit s u = pushState s u) := by
  cases v <;> simp only [putTodo, pushPredB] <;> split
  · exact Or.inl rfl
  · rename_i hle
    split
    · rename_i hm
      exact Or.inr ⟨Nat.lt_of_not_le hle, hm, rfl⟩
    · exact Or.inl rfl
  · exact Or.inl rfl
  · rename_i hle
    exact Or.inr ⟨Nat.lt_of_not_le hle, by trivial, rfl⟩

/-- `put_todo` at or past the cap is a no-op, for both variants. -/
theorem putTodo_at_cap (v : Variant) (limit : Nat) (s : CrawlState) (u : String)
    (h : limit ≤ s.total) : putTodo v limit s u = s := by
  cases v <;> simp [putTodo, h]

/-- Iterating `put_todo` pushes some sublist `add` of the given list: every
pushed address satisfies the variant predicate, the counter grows by the
number of pushes, and the cap is never crossed. -/
theorem putList_spec (v : Variant) (limit : Nat) :
    ∀ (l : List String) (s : CrawlState),
      ∃ add : List String, add.Sublist l ∧
        putList v limit s l = pushMany s add ∧
        (∀ a ∈ add, pushPredB v a = true) ∧
        (s.total ≤ limit → s.total + add.length ≤ limit) := by
  intro l
  induction l with
  | nil =>
    intro s
    refine ⟨[], List.Sublist.refl _, (pushMany_nil s).symm, ?_, ?_⟩
    · intro a ha
      simp at ha
    · intro h
      simpa using h
  | cons u t ih =>
    intro s
    rcases putTodo_cases v limit s u with heq | ⟨hlt, hpred, heq⟩
    · rcases ih s with ⟨add, hsub, hres, hpredAll, hcap⟩
      refine ⟨add, hsub.cons u, ?_, hpredAll, hcap⟩
      simpa [putList, heq] using hres
    · rcases ih (pushState s u) with ⟨add, hsub, hres, hpredAll, hcap⟩
      refine ⟨u :: add, hsub.cons₂ u, ?_, ?_, ?_⟩
      · have : putList v limit s (u :: t) = putList v limit (pushState s u) t := by
          simp [putList, heq]
        rw [this, hres, pushState_eq_pushMany, pushMany_pushMany]
        rfl
      · intro a ha
        rcases List.mem_cons.mp ha with rfl | ha
        · exact hpred
        · exact hpredAll a ha
      · intro hle
        have h1 : (pushState s u).total ≤ limit := hlt
        have := hcap h1
        simp only [pushState] at this
        simp only [List.length_cons]
        omega

theorem pushMany_seen (s : CrawlState) (l : List String) : (pushMany s l).seen = s.seen := rfl
theorem pushMany_doneS (s : CrawlState) (l : List String) : (pushMany s l).doneS = s.doneS := rfl
theorem pushMany_dequeued (s : CrawlState) (l : List String) :
    (pushMany s l).dequeued = s.dequeued := rfl
theorem pushMany_inflight (s : CrawlState) (l : List String) :
    (pushMany s l).inflight = s.inflight := rfl
theorem pushMany_succeeded (s : CrawlState) (l : List String) :
    (pushMany s l).succeeded = s.succeeded := rfl
theorem pushMany_failed (s : CrawlState) (l : List String) :
    (pushMany s l).failed = s.failed := rfl

/-- The elements admitted by `on_found_links`. -/
def newOf (s : CrawlState) (urls : List String) : List String :=
  (urls.filter (fun u => decide (u ∉ s.seen))).dedup

theorem newOf_nodup (s : CrawlState) (urls : List String) : (newOf s urls).Nodup :=
  List.nodup_dedup _

theorem newOf_not_seen (s : CrawlState) (urls : List String) :
    ∀ u ∈ newOf s urls, u ∉ s.seen := by
  intro u hu
  have := List.of_mem_filter (List.mem_dedup.mp hu)
  simpa using this

theorem onFoundLinks_eq (v : Variant) (limit : Nat) (s : CrawlState) (urls : List String) :
    onFoundLinks v limit s urls =
      putList v limit { s with seen := s.seen ∪ (newOf s urls).toFinset } (newOf s urls) := rfl

/-- `on_found_links` only touches `seen`, the queue and the counter. -/
theorem onFoundLinks_ghost (v : Variant) (limit : Nat) (s : CrawlState) (urls : List String) :
    (onFoundLinks v limit s urls).doneS = s.doneS ∧
    (onFoundLinks v limit s urls).dequeued = s.dequeued ∧
    (onFoundLinks v limit s urls).inflight = s.inflight ∧
    (onFoundLinks v limit s urls).succeeded = s.succeeded ∧
    (onFoundLinks v limit s urls).failed = s.failed := by
  rcases putList_spec v limit (newOf s urls)
      { s with seen := s.seen ∪ (newOf s urls).toFinset } with ⟨add, _, hres, _, _⟩
  rw [onFoundLinks_eq, hres]
  exact ⟨rfl, rfl, rfl, rfl, rfl⟩

/-! ### The crawl invariant -/

/-- Inductive invariant of every crawl: the dequeue history followed by the
current queue is exactly the enqueue history; no address was enqueued twice;
enqueued addresses are in the Seen Set; the counter counts enqueues and never
exceeds the cap; `done` is exactly the set of successfully visited addresses;
and all histories are backed by dequeues. -/
structure InvH (limit : Nat) (s : CrawlState) : Prop where
  hqueue : s.dequeued ++ s.todo = s.enqueued
  hnodup : s.enqueued.Nodup
  hsub : ∀ u ∈ s.enqueued, u ∈ s.seen
  htotal : s.total = s.enqueued.length
  hcap : s.total ≤ limit
  hdone : s.doneS = s.succeeded.toFinset
  hsucc : ∀ u ∈ s.succeeded, u ∈ s.dequeued
  hfail : ∀ u ∈ s.failed, u ∈ s.dequeued
  hinfl : ∀ u ∈ s.inflight, u ∈ s.dequeued

theorem invH_onFoundLinks (v : Variant) (limit : Nat) (s : CrawlState) (urls : List String)
    (h : InvH limit s) : InvH limit (onFoundLinks v limit s urls) := by
  rcases putList_spec v limit (newOf s urls)
      { s with seen := s.seen ∪ (newOf s urls).toFinset } with ⟨add, hsub, hres, _, hcap⟩
  rw [onFoundLinks_eq, hres]
  have haddNew : ∀ a ∈ add, a ∈ newOf s urls := fun a ha => hsub.subset ha
  constructor
  · show s.dequeued ++ (s.todo ++ add) = s.enqueued ++ add
    rw [← List.append_assoc, h.hqueue]
  · show (s.enqueued ++ add).Nodup
    refine h.hnodup.append (hsub.nodup (newOf_nodup s urls)) ?_
    intro a haEnq haAdd
    exact newOf_not_seen s urls a (haddNew a haAdd) (h.hsub a haEnq)
  · show ∀ u ∈ s.enqueued ++ add, u ∈ s.seen ∪ (newOf s urls).toFinset
    intro u hu
    rcases List.mem_append.mp hu with hu | hu
    · exact Finset.mem_union_left _ (h.hsub u hu)
    · exact Finset.mem_union_right _ (List.mem_toFinset.mpr (haddNew u hu))
  · show s.total + add.length = (s.enqueued ++ add).length
    simp [h.htotal]
  · exact hcap h.hcap
  · exact h.hdone
  · exact h.hsucc
  · exact h.hfail
  · exact h.hinfl

theorem finishOk_fields (v : Variant) (limit : Nat) (s : CrawlState) (u : String)
    (links : List String) :
    (finishOk v limit s u links).seen = (onFoundLinks v limit s links).seen ∧
    (finishOk v limit s u links).doneS = insert u s.doneS ∧
    (finishOk v limit s u links).todo = (onFoundLinks v limit s links).todo ∧
    (finishOk v limit s u links).inflight = s.inflight.erase u ∧
    (finishOk v limit s u links).total = (onFoundLinks v limit s links).total ∧
    (finishOk v limit s u links).enqueued = (onFoundLinks v limit s links).enqueued ∧
    (finishOk v limit s u links).dequeued = s.dequeued ∧
    (finishOk v limit s u links).succeeded = s.succeeded ++ [u] ∧
    (finishOk v limit s u links).failed = s.failed := by
  obtain ⟨hd, hq, hi, hs, hf⟩ := onFoundLinks_ghost v limit s links
  refine ⟨rfl, ?_, rfl, ?_, rfl, rfl, ?_, ?_, ?_⟩
  · show insert u (onFoundLinks v limit s links).doneS = insert u s.doneS
    rw [hd]
  · show (onFoundLinks v limit s links).inflight.erase u = s.inflight.erase u
    rw [hi]
  · exact hq
  · show (onFoundLinks v limit s links).succeeded ++ [u] = s.succeeded ++ [u]
    rw [hs]
  · exact hf

theorem invH_step {v : Variant} {limit : Nat} {s s' : CrawlState}
    (hstep : Step v limit s s') (h : InvH limit s) : InvH limit s' := by
  cases hstep with
  | dequeue u t htodo =>
    constructor
    · show (s.dequeued ++ [u]) ++ t = s.enqueued
      rw [List.append_assoc, List.singleton_append, ← htodo]
      exact h.hqueue
    · exact h.hnodup
    · exact h.hsub
    · exact h.htotal
    · exact h.hcap
    · exact h.hdone
    · exact fun x hx => List.mem_append_left _ (h.hsucc x hx)
    · exact fun x hx => List.mem_append_left _ (h.hfail x hx)
    · intro x hx
      rcases List.mem_append.mp hx with hx | hx
      · exact List.mem_append_left _ (h.hinfl x hx)
      · exact List.mem_append_right _ hx
  | ok u links hu =>
    have h1 := invH_onFoundLinks v limit s links h
    obtain ⟨hseen, hdone, htodo, hinfl, htot, henq, hdeq, hsucc, hfail⟩ :=
      finishOk_fields v limit s u links
    obtain ⟨gd, gq, gi, gs, gf⟩ := onFoundLinks_ghost v limit s links
    constructor
    · rw [hdeq, htodo, henq, ← gq]
      exact h1.hqueue
    · rw [henq]
      exact h1.hnodup
    · intro x hx
      rw [henq] at hx
      rw [hseen]
      exact h1.hsub x hx
    · rw [htot, henq]
      exact h1.htotal
    · rw [htot]
      exact h1.hcap
    · rw [hdone, hsucc, h.hdone]
      simp [List.toFinset_append, Finset.insert_eq, Finset.union_comm]
    · intro x hx
      rw [hsucc] at hx
      rw [hdeq]
      rcases List.mem_append.mp hx with hx | hx
      · exact h.hsucc x hx
      · have hxu : x = u := by simpa using hx
        subst hxu
        exact h.hinfl x hu
    · intro x hx
      rw [hfail] at hx
      rw [hdeq]
      exact h.hfail x hx
    · intro x hx
      rw [hinfl] at hx
      rw [hdeq]
      exact h.hinfl x (List.erase_subset _ _ hx)
  | fail u hu =>
    constructor
    · exact h.hqueue
    · exact h.hnodup
    · exact h.hsub
    · exact h.htotal
    · exact h.hcap
    · exact h.hdone
    · exact h.hsucc
    · intro x hx
      rcases List.mem_append.mp hx with hx | hx
      · exact h.hfail x hx
      · have hxu : x = u := by simpa using hx
        subst hxu
        exact h.hinfl x hu
    · intro x hx
      exact h.hinfl x (List.erase_subset _ _ hx)

theorem invH_init (limit : Nat) : InvH limit initState := by
  constructor <;> simp [initState]

theorem invH_start (v : Variant) (limit : Nat) (seeds : List String) :
    InvH limit (startState v limit seeds) :=
  invH_onFoundLinks v limit initState seeds (invH_init limit)

theorem invH_reachable {v : Variant} {limit : Nat} {seeds : List String} {s : CrawlState}
    (h : Reachable v limit seeds s) : InvH limit s := by
  induction h with
  | refl => exact invH_start v limit seeds
  | tail _ hstep ih => exact invH_step hstep ih

/-! ### Seen-set gating along a crawl -/

/-- Enqueues performed by one `on_found_links` call: some of the new
(previously unseen) addresses, each passing the variant predicate. -/
theorem onFoundLinks_enq (v : Variant) (limit : Nat) (s : CrawlState) (urls : List String) :
    ∃ add : List String,
      (onFoundLinks v limit s urls).enqueued = s.enqueued ++ add ∧
      (onFoundLinks v limit s urls).seen = s.seen ∪ (newOf s urls).toFinset ∧
      (∀ a ∈ add, a ∈ newOf s urls) ∧
      (∀ a ∈ add, pushPredB v a = true) := by
  rcases putList_spec v limit (newOf s urls)
      { s with seen := s.seen ∪ (newOf s urls).toFinset } with ⟨add, hsub, hres, hpred, _⟩
  rw [onFoundLinks_eq, hres]
  exact ⟨add, rfl, rfl, fun a ha => hsub.subset ha, hpred⟩

/-- One step never removes an address from the Seen Set and never enqueues an
address that is already seen. -/
theorem pair_step {v : Variant} {limit : Nat} {s s' : CrawlState}
    (hstep : Step v limit s s') {u : String}
    (hp : u ∈ s.seen ∧ u ∉ s.enqueued) : u ∈ s'.seen ∧ u ∉ s'.enqueued := by
  cases hstep with
  | dequeue w t htodo => exact hp
  | ok w links hw =>
    obtain ⟨hseen, _, _, _, _, henq, _, _, _⟩ := finishOk_fields v limit s w links
    obtain ⟨add, genq, gseen, gmem, _⟩ := onFoundLinks_enq v limit s links
    constructor
    · rw [hseen, gseen]
      exact Finset.mem_union_left _ hp.1
    · rw [henq, genq]
      intro hmem
      rcases List.mem_append.mp hmem with hmem | hmem
      · exact hp.2 hmem
      · exact newOf_not_seen s links u (gmem u hmem) hp.1
  | fail w hw => exact hp

theorem pair_reachable {v : Variant} {limit : Nat} {seeds : List String} {s : CrawlState}
    (h : Reachable v limit seeds s) {u : String}
    (hp : u ∈ (startState v limit seeds).seen ∧ u ∉ (startState v limit seeds).enqueued) :
    u ∈ s.seen ∧ u ∉ s.enqueued := by
  induction h with
  | refl => exact hp
  | tail _ hstep ih => exact pair_step hstep ih

/-- A seed enters the Seen Set at priming time; a marker-less seed is not
enqueued by the default variant's priming. -/
theorem startState_pair (limit : Nat) (seeds : List String) (u : String)
    (hu : u ∈ seeds) (hm : hasMarker u = false) :
    u ∈ (startState .default limit seeds).seen ∧
    u ∉ (startState .default limit seeds).enqueued := by
  obtain ⟨add, henq, hseen, hmem, hpred⟩ := onFoundLinks_enq .default limit initState seeds
  have hstart : startState .default limit seeds = onFoundLinks .default limit initState seeds := rfl
  constructor
  · rw [hstart, hseen]
    apply Finset.mem_union_right
    rw [List.mem_toFinset, newOf, List.mem_dedup, List.mem_filter]
    exact ⟨hu, by simp [initState]⟩
  · rw [hstart, henq]
    intro hmem'
    have hadd : u ∈ add := by simpa [initState] using hmem'
    have := hpred u hadd
    simp only [pushPredB] at this
    rw [hm] at this
    exact Bool.false_ne_true this

/-! ### Claims about the crawl engine -/

/-- C1: each address is enqueued to the Frontier at most once over a crawl's
lifetime (the enqueue history has no duplicates), hence no address appears
twice in the dequeue sequence; every enqueued address was added to the Seen
Set, which gates any later enqueue. -/
theorem claim_C1_enqueue_once (v : Variant) (limit : Nat) (seeds : List String)
    (s : CrawlState) (h : Reachable v limit seeds s) :
    s.enqueued.Nodup ∧ s.dequeued.Nodup ∧ ∀ u ∈ s.enqueued, u ∈ s.seen := by
  have hi := invH_reachable h
  refine ⟨hi.hnodup, ?_, hi.hsub⟩
  have hsubl : s.dequeued.Sublist s.enqueued := by
    rw [← hi.hqueue]
    exact List.sublist_append_left _ _
  exact List.Nodup.sublist hsubl hi.hnodup

theorem claim_C1_enqueue_once_witness :
    (startState .default 25 ["x?p=1"]).enqueued.Nodup ∧
    (startState .default 25 ["x?p=1"]).dequeued.Nodup ∧
    ∀ u ∈ (startState .default 25 ["x?p=1"]).enqueued,
      u ∈ (startState .default 25 ["x?p=1"]).seen :=
  claim_C1_enqueue_once .default 25 ["x?p=1"] _ Relation.ReflTransGen.refl

/-- C2 counterexample: with cap 0 and one seed, the primed state is reachable
and its Seen Set already has more elements than the cap — `on_found_links`
adds every new address to `seen` regardless of the limit, so
`|SeenSet| ≤ discoveryCap` fails. -/
theorem claim_C2_cex :
    Reachable .default 0 ["a"] (startState .default 0 ["a"]) ∧
    (startState .default 0 ["a"]).seen.card = 1 ∧
    ¬ (startState .default 0 ["a"]).seen.card ≤ 0 :=
  ⟨Relation.ReflTransGen.refl, by decide, by decide⟩

/-- C2 (amended): at every reachable state, `|Done| ≤ |SeenSet|`, and the
Discovery Counter (not the Seen Set) is bounded by the cap:
`total ≤ limit`. -/
theorem claim_C2_amended (v : Variant) (limit : Nat) (seeds : List String)
    (s : CrawlState) (h : Reachable v limit seeds s) :
    s.doneS.card ≤ s.seen.card ∧ s.total ≤ limit := by
  have hi := invH_reachable h
  refine ⟨?_, hi.hcap⟩
  apply Finset.card_le_card
  intro x hx
  rw [hi.hdone] at hx
  have hx2 := hi.hsucc x (List.mem_toFinset.mp hx)
  have hx3 : x ∈ s.enqueued := by
    rw [← hi.hqueue]
    exact List.mem_append_left _ hx2
  exact hi.hsub x hx3

theorem claim_C2_amended_witness :
    (startState .default 0 ["a"]).doneS.card ≤ (startState .default 0 ["a"]).seen.card ∧
    (startState .default 0 ["a"]).total ≤ 0 :=
  claim_C2_amended .default 0 ["a"] _ Relation.ReflTransGen.refl

/-- C3: the Discovery Counter starts at 0, equals the number of addresses
ever pushed to the Frontier, never exceeds the cap, and once at (or past) the
cap every `put_todo` call is a no-op leaving the whole state — counter and
queue included — unchanged. -/
theorem claim_C3_counter (v : Variant) (limit : Nat) (seeds : List String)
    (s : CrawlState) (h : Reachable v limit seeds s) :
    initState.total = 0 ∧ s.total = s.enqueued.length ∧ s.total ≤ limit ∧
    ∀ (s' : CrawlState) (u : String), limit ≤ s'.total → putTodo v limit s' u = s' := by
  have hi := invH_reachable h
  exact ⟨rfl, hi.htotal, hi.hcap, fun s' u h' => putTodo_at_cap v limit s' u h'⟩

theorem claim_C3_counter_witness :
    initState.total = 0 ∧
    (startState .spell 3 ["a", "b"]).total = (startState .spell 3 ["a", "b"]).enqueued.length ∧
    (startState .spell 3 ["a", "b"]).total ≤ 3 ∧
    ∀ (s' : CrawlState) (u : String), 3 ≤ s'.total → putTodo .spell 3 s' u = s' :=
  claim_C3_counter .spell 3 ["a", "b"] _ Relation.ReflTransGen.refl

/-- The `limit=len(urls)` argument of `SpellReader.__init__` (line 202). -/
def spellReaderLimit (urls : List String) : Nat := urls.length

/-- C4: an address is pushed (counter incremented, queue extended) iff it
passes the variant predicate and the counter check: for `Crawler.put_todo`
the predicate is containment of the pagination marker `'?p='`; for
`SpellReader.put_todo` only the counter check applies, against the
per-instance limit, which is set to the number of configured urls. -/
theorem claim_C4_admission : ∀ (limit : Nat) (s : CrawlState) (u : String)
    (urls : List String),
    (putTodo .default limit s u =
      if s.total < limit ∧ hasMarker u = true then pushState s u else s) ∧
    (putTodo .spell limit s u = if s.total < limit then pushState s u else s) ∧
    spellReaderLimit urls = urls.length := by
  intro limit s u urls
  refine ⟨?_, ?_, rfl⟩
  · rcases Nat.lt_or_ge s.total limit with hlt | hge
    · by_cases hm : hasMarker u
      · simp [putTodo, Nat.not_le.mpr hlt, hlt, hm]
      · simp [putTodo, Nat.not_le.mpr hlt, hlt, hm]
    · simp [putTodo, hge, Nat.not_lt.mpr hge]
  · rcases Nat.lt_or_ge s.total limit with hlt | hge
    · simp [putTodo, Nat.not_le.mpr hlt, hlt]
    · simp [putTodo, hge, Nat.not_lt.mpr hge]

/-- C7: when the visit of a dequeued address fails, the state change is
exactly the acknowledgment (`task_done`): `seen`, `done` and the queue are
untouched and the address leaves the in-flight list; acknowledgment happens
on success too; no address is ever dequeued twice (no retry); `done` is
exactly the set of successfully visited addresses, so a failed address that
never succeeded is absent from `done`; and every failed address stays in the
Seen Set. -/
theorem claim_C7_failure (v : Variant) (limit : Nat) (seeds : List String)
    (s : CrawlState) (h : Reachable v limit seeds s) :
    (∀ u : String,
      (finishFail s u).seen = s.seen ∧ (finishFail s u).doneS = s.doneS ∧
      (finishFail s u).todo = s.todo ∧ (finishFail s u).inflight = s.inflight.erase u) ∧
    (∀ (u : String) (links : List String),
      (finishOk v limit s u links).inflight = s.inflight.erase u) ∧
    s.dequeued.Nodup ∧
    s.doneS = s.succeeded.toFinset ∧
    (∀ u ∈ s.failed, u ∈ s.seen) ∧
    (∀ u ∈ s.failed, u ∉ s.succeeded → u ∉ s.doneS) := by
  have hi := invH_reachable h
  refine ⟨fun u => ⟨rfl, rfl, rfl, rfl⟩, ?_, ?_, hi.hdone, ?_, ?_⟩
  · intro u links
    exact (finishOk_fields v limit s u links).2.2.2.1
  · have hsubl : s.dequeued.Sublist s.enqueued := by
      rw [← hi.hqueue]
      exact List.sublist_append_left _ _
    exact List.Nodup.sublist hsubl hi.hnodup
  · intro u hu
    have h1 := hi.hfail u hu
    have h2 : u ∈ s.enqueued := by
      rw [← hi.hqueue]
      exact List.mem_append_left _ h1
    exact hi.hsub u h2
  · intro u _ hns hd
    rw [hi.hdone] at hd
    exact hns (List.mem_toFinset.mp hd)

theorem claim_C7_failure_witness :
    (∀ u : String,
      (finishFail (startState .default 2 ["b?p=0"]) u).seen =
        (startState .default 2 ["b?p=0"]).seen ∧
      (finishFail (startState .default 2 ["b?p=0"]) u).doneS =
        (startState .default 2 ["b?p=0"]).doneS ∧
      (finishFail (startState .default 2 ["b?p=0"]) u).todo =
        (startState .default 2 ["b?p=0"]).todo ∧
      (finishFail (startState .default 2 ["b?p=0"]) u).inflight =
        (startState .default 2 ["b?p=0"]).inflight.erase u) ∧
    (∀ (u : String) (links : List String),
      (finishOk .default 2 (startState .default 2 ["b?p=0"]) u links).inflight =
        (startState .default 2 ["b?p=0"]).inflight.erase u) ∧
    (startState .default 2 ["b?p=0"]).dequeued.Nodup ∧
    (startState .default 2 ["b?p=0"]).doneS =
      (startState .default 2 ["b?p=0"]).succeeded.toFinset ∧
    (∀ u ∈ (startState .default 2 ["b?p=0"]).failed,
      u ∈ (startState .default 2 ["b?p=0"]).seen) ∧
    (∀ u ∈ (startState .default 2 ["b?p=0"]).failed,
      u ∉ (startState .default 2 ["b?p=0"]).succeeded →
      u ∉ (startState .default 2 ["b?p=0"]).doneS) :=
  claim_C7_failure .default 2 ["b?p=0"] _ Relation.ReflTransGen.refl

/-- C9: a seed without the pagination marker `'?p='` enters the Seen Set when
`run` primes the queue, but in the default variant it is never enqueued,
never dequeued, and never enters `done` — it contributes to `seen` and
produces no crawling work. -/
theorem claim_C9_markerless_seed (limit : Nat) (seeds : List String) (u : String)
    (hu : u ∈ seeds) (hm : hasMarker u = false) (s : CrawlState)
    (h : Reachable .default limit seeds s) :
    u ∈ s.seen ∧ u ∉ s.enqueued ∧ u ∉ s.dequeued ∧ u ∉ s.doneS := by
  have hi := invH_reachable h
  have hpair := pair_reachable h (startState_pair limit seeds u hu hm)
  refine ⟨hpair.1, hpair.2, ?_, ?_⟩
  · intro hd
    apply hpair.2
    rw [← hi.hqueue]
    exact List.mem_append_left _ hd
  · intro hd
    rw [hi.hdone] at hd
    apply hpair.2
    rw [← hi.hqueue]
    exact List.mem_append_left _ (hi.hsucc u (List.mem_toFinset.mp hd))

theorem claim_C9_markerless_seed_witness :
    "a" ∈ (startState .default 7 ["a"]).seen ∧
    "a" ∉ (startState .default 7 ["a"]).enqueued ∧
    "a" ∉ (startState .default 7 ["a"]).dequeued ∧
    "a" ∉ (startState .default 7 ["a"]).doneS :=
  claim_C9_markerless_seed 7 ["a"] "a" (by simp) (by decide) _ Relation.ReflTransGen.refl

/-!
### The URL filter (`UrlFilterer.filter_url`, lines 27-44)

`filter_url` is a composition of `urllib.parse.urljoin`, `urllib.parse.urldefrag`,
`urllib.parse.urlparse`, `pathlib.Path(...).suffix` and the four rule checks.
The library functions are modelled below after CPython's `Lib/urllib/parse.py`
and `Lib/pathlib.py` (POSIX flavour).  Strings are modelled as `List Char`;
inputs are assumed to be printable ASCII, so the control-character stripping
and the non-ASCII NFKC netloc check of newer CPython versions are not
modelled; of the authority validation only the unmatched-square-bracket check
(`raise ValueError("Invalid IPv6 URL")`), present in every CPython 3 version,
is modelled.  Exceptions are modelled by `Except String`.
-/

/-- Split a character list at the first occurrence of `c`:
`some (before, after)` with `c ∉ before`, or `none` if `c` is absent
(Python's `s.split(c, 1)` / `s.find(c)`). -/
def splitAtFirst (c : Char) : List Char → Option (List Char × List Char)
  | [] => none
  | x :: xs =>
    if x = c then some ([], xs)
    else
      match splitAtFirst c xs with
      | none => none
      | some (a, b) => some (x :: a, b)

/-- Split at the last occurrence of `c` (Python's `s.rfind(c)`):
`some (before, after)` with `c ∉ after`. -/
def splitAtLast (c : Char) (l : List Char) : Option (List Char × List Char) :=
  match splitAtFirst c l.reverse with
  | none => none
  | some (x, y) => some (y.reverse, x.reverse)

/-- CPython's `scheme_chars`: letters, digits and `+-.` (ASCII). -/
def schemeChar (c : Char) : Bool := c.isAlpha || c.isDigit || c = '+' || c = '-' || c = '.'

/-- Scheme detection of `urlsplit`: take everything before the first `:` as
the scheme (lowercased) when it is nonempty, starts with an ASCII letter and
consists of scheme characters; otherwise use the caller's default scheme and
leave the input untouched. -/
def schemeSplit (l dflt : List Char) : List Char × List Char :=
  match splitAtFirst ':' l with
  | none => (dflt, l)
  | some (pre, post) =>
    match pre with
    | [] => (dflt, l)
    | c0 :: _ =>
      if c0.isAlpha && pre.all schemeChar then (pre.map Char.toLower, post)
      else (dflt, l)

/-- The characters that end an authority component (`_splitnetloc`). -/
def netlocDelim (c : Char) : Bool := c = '/' || c = '?' || c = '#'

/-- `_splitnetloc`: when the rest starts with `//`, the netloc runs to the
first `/`, `?` or `#`. -/
def netlocSplit (rest : List Char) : List Char × List Char :=
  if rest.take 2 = ['/', '/'] then
    let after := rest.drop 2
    (after.takeWhile (fun c => !netlocDelim c), after.dropWhile (fun c => !netlocDelim c))
  else ([], rest)

/-- Fragment split of `urlsplit`: `url.split('#', 1)` when `#` occurs. -/
def fragSplit (r : List Char) : List Char × List Char :=
  match splitAtFirst '#' r with
  | none => (r, [])
  | some (a, b) => (a, b)

/-- Query split of `urlsplit`: `url.split('?', 1)` when `?` occurs. -/
def querySplit (r : List Char) : List Char × List Char :=
  match splitAtFirst '?' r with
  | none => (r, [])
  | some (a, b) => (a, b)

/-- Result record of `urlsplit`. -/
structure SplitResult where
  scheme : List Char
  netloc : List Char
  path : List Char
  query : List Char
  fragment : List Char
deriving DecidableEq

/-- `urllib.parse.urlsplit` (with `allow_fragments=True`): strip leading
control-or-space characters (for printable-ASCII inputs: spaces), then
scheme, authority, bracket sanity check, fragment, query.  (The default
scheme is also stripped by CPython; internal callers only pass scheme
characters, for which that strip is the identity.) -/
def urlsplitL (l dflt : List Char) : Except String SplitResult :=
  let l1 := l.dropWhile (fun c => c = ' ')
  let sp := schemeSplit l1 dflt
  let np := netlocSplit sp.2
  if ('[' ∈ np.1 ∧ ']' ∉ np.1) ∨ (']' ∈ np.1 ∧ '[' ∉ np.1) then
    .error "Invalid IPv6 URL"
  else
    let fp := fragSplit np.2
    let qp := querySplit fp.1
    .ok ⟨sp.1, np.1, qp.1, qp.2, fp.2⟩

/-- `_splitparams`: split the params off a path — the part after the first
`;` that follows the last `/` (or the first `;` at all if the path has no
`/`). -/
def splitParamsL (p : List Char) : List Char × List Char :=
  if ';' ∈ p then
    if '/' ∈ p then
      match splitAtLast '/' p with
      | none => (p, [])
      | some (a, b) =>
        match splitAtFirst ';' b with
        | none => (p, [])
        | some (b1, b2) => (a ++ '/' :: b1, b2)
    else
      match splitAtFirst ';' p with
      | none => (p, [])
      | some (p1, p2) => (p1, p2)
  else (p, [])

/-- Result record of `urlparse`. -/
structure ParseResult where
  scheme : List Char
  netloc : List Char
  path : List Char
  params : List Char
  query : List Char
  fragment : List Char
deriving DecidableEq

/-- `urllib.parse.urlparse`: `urlsplit` plus the params split. -/
def urlparseL (l dflt : List Char) : Except String ParseResult :=
  match urlsplitL l dflt with
  | .error e => .error e
  | .ok s =>
    let pp := splitParamsL s.path
    .ok ⟨s.scheme, s.netloc, pp.1, pp.2, s.query, s.fragment⟩

/-- CPython's `uses_relative` scheme list. -/
def usesRelative : List (List Char) :=
  [[], "ftp".toList, "http".toList, "gopher".toList, "nntp".toList, "imap".toList,
   "wais".toList, "file".toList, "https".toList, "shttp".toList, "mms".toList,
   "prospero".toList, "rtsp".toList, "rtspu".toList, "sftp".toList, "svn".toList,
   "svn+ssh".toList, "ws".toList, "wss".toList]

/-- CPython's `uses_netloc` scheme list. -/
def usesNetloc : List (List Char) :=
  [[], "ftp".toList, "http".toList, "gopher".toList, "nntp".toList, "telnet".toList,
   "imap".toList, "wais".toList, "file".toList, "mms".toList, "https".toList,
   "shttp".toList, "snews".toList, "prospero".toList, "rtsp".toList, "rtspu".toList,
   "rsync".toList, "svn".toList, "svn+ssh".toList, "sftp".toList, "nfs".toList,
   "git".toList, "git+ssh".toList, "ws".toList, "wss".toList, "itms-services".toList]

/-- First reassignment of `url` in `urlunsplit`: prepend `//` plus the
authority when there is a netloc, or when the scheme uses one and the path
does not already start with `//`. -/
def unsplitAuthority (scheme netloc path : List Char) : List Char :=
  if netloc ≠ [] ∨ (scheme ≠ [] ∧ scheme ∈ usesNetloc ∧ path.take 2 ≠ ['/', '/']) then
    ['/', '/'] ++ netloc ++ (if path ≠ [] ∧ path.head? ≠ some '/' then '/' :: path else path)
  else path

/-- Second reassignment: `if scheme: url = scheme + ':' + url`. -/
def unsplitScheme (scheme netloc path : List Char) : List Char :=
  if scheme ≠ [] then scheme ++ ':' :: unsplitAuthority scheme netloc path
  else unsplitAuthority scheme netloc path

/-- Third reassignment: `if query: url = url + '?' + query`. -/
def unsplitQuery (scheme netloc path query : List Char) : List Char :=
  if query ≠ [] then unsplitScheme scheme netloc path ++ '?' :: query
  else unsplitScheme scheme netloc path

/-- `urllib.parse.urlunsplit`: the authority/scheme/query reassignments, then
`if fragment: url = url + '#' + fragment`. -/
def urlunsplitL (scheme netloc path query fragment : List Char) : List Char :=
  if fragment ≠ [] then unsplitQuery scheme netloc path query ++ '#' :: fragment
  else unsplitQuery scheme netloc path query

/-- `urllib.parse.urlunparse`. -/
def urlunparseL (p : ParseResult) : List Char :=
  let path2 := if p.params ≠ [] then p.path ++ ';' :: p.params else p.path
  urlunsplitL p.scheme p.netloc path2 p.query p.fragment

/-- `urllib.parse.urldefrag`: when a `#` occurs, re-serialize the parse with
an empty fragment; otherwise return the input unchanged. -/
def urldefragL (l : List Char) : Except String (List Char × List Char) :=
  if '#' ∈ l then
    match urlparseL l [] with
    | .error e => .error e
    | .ok p => .ok (urlunparseL ⟨p.scheme, p.netloc, p.path, p.params, p.query, []⟩, p.fragment)
  else .ok (l, [])

/-- Python's `str.split(c)` on character lists (always nonempty result). -/
def splitOnChar (c : Char) : List Char → List (List Char)
  | [] => [[]]
  | x :: xs =>
    if x = c then [] :: splitOnChar c xs
    else
      match splitOnChar c xs with
      | [] => [[x]]
      | h :: t => (x :: h) :: t

/-- Drop empty segments except a final one (`filter(None, ...)` applied to a
list whose last element is kept). -/
def keepLastFilter : List (List Char) → List (List Char)
  | [] => []
  | [x] => [x]
  | x :: xs => if x = [] then keepLastFilter xs else x :: keepLastFilter xs

/-- `segments[1:-1] = filter(None, segments[1:-1])`: keep the first and last
elements, drop empty ones strictly in between. -/
def middleFilter (l : List (List Char)) : List (List Char) :=
  match l with
  | [] => []
  | a :: rest => a :: keepLastFilter rest

/-- The `for seg in segments` loop of `urljoin`: resolve `.` and `..`. -/
def resolveSegs (segs : List (List Char)) : List (List Char) :=
  segs.foldl
    (fun acc seg =>
      if seg = ['.', '.'] then acc.dropLast
      else if seg = ['.'] then acc
      else acc ++ [seg])
    []

/-- `base_parts = bpath.split('/'); if base_parts[-1] != '': del base_parts[-1]`. -/
def mergeBaseParts (bpath : List Char) : List (List Char) :=
  let bp := splitOnChar '/' bpath
  if bp.getLast? ≠ some [] then bp.dropLast else bp

/-- The `segments` list of `urljoin`: the reference path's own segments when
it is absolute, else the merged and middle-filtered segment list. -/
def mergeSegs (bpath rpath : List Char) : List (List Char) :=
  if rpath.head? = some '/' then splitOnChar '/' rpath
  else middleFilter (mergeBaseParts bpath ++ splitOnChar '/' rpath)

/-- `resolved_path` after the loop, including the trailing `''` appended when
the last segment was `.` or `..`. -/
def mergedResolved (bpath rpath : List Char) : List (List Char) :=
  let segments := mergeSegs bpath rpath
  if segments.getLast? = some ['.'] ∨ segments.getLast? = some ['.', '.'] then
    resolveSegs segments ++ [[]]
  else resolveSegs segments

/-- The relative-path merge of `urljoin`: `'/'.join(resolved_path) or '/'`. -/
def mergeSegments (bpath rpath : List Char) : List Char :=
  let joined := List.intercalate ['/'] (mergedResolved bpath rpath)
  if joined = [] then ['/'] else joined

/-- The branch structure of `urljoin` after both parses succeeded. -/
def joinParsed (b r : ParseResult) (url : List Char) : List Char :=
  if r.scheme ≠ b.scheme ∨ r.scheme ∉ usesRelative then url
  else if r.scheme ∈ usesNetloc ∧ r.netloc ≠ [] then urlunparseL r
  else
    let nl := if r.scheme ∈ usesNetloc then b.netloc else r.netloc
    if r.path = [] ∧ r.params = [] then
      let q := if r.query = [] then b.query else r.query
      urlunparseL ⟨r.scheme, nl, b.path, b.params, q, r.fragment⟩
    else
      urlunparseL ⟨r.scheme, nl, mergeSegments b.path r.path, r.params, r.query, r.fragment⟩

/-- `urllib.parse.urljoin`. -/
def urljoinL (base url : List Char) : Except String (List Char) :=
  if base = [] then .ok url
  else if url = [] then .ok base
  else
    match urlparseL base [] with
    | .error e => .error e
    | .ok b =>
      match urlparseL url b.scheme with
      | .error e => .error e
      | .ok r => .ok (joinParsed b r url)

/-- `pathlib.PurePosixPath(path).name`: the last component after dropping
empty and `'.'` components. -/
def pathName (path : List Char) : List Char :=
  (((splitOnChar '/' path).filter (fun s => !s.isEmpty && s ≠ ['.'])).getLast?).getD []

/-- `pathlib.PurePosixPath(path).suffix`: from the last `.` of the name,
empty when that dot is the first or last character of the name. -/
def pathSuffix (path : List Char) : List Char :=
  let nm := pathName path
  match splitAtLast '.' nm with
  | none => []
  | some (a, b) => if a ≠ [] ∧ b ≠ [] then '.' :: b else []

/-- The `UrlFilterer` configuration record (lines 14-25); `None` fields mean
no restriction. -/
structure UrlFilterer where
  allowed_domains : Option (List String)
  allowed_schemes : Option (List String)
  allowed_filetypes : Option (List String)
  blocked_phrases : Option (List String)

/-- Rule 1 of `filter_url`: scheme not allowed (when the field is set). -/
def rejectedByScheme (f : UrlFilterer) (p : ParseResult) : Bool :=
  match f.allowed_schemes with
  | none => false
  | some s => !(decide (String.mk p.scheme ∈ s))

/-- Rule 2: netloc not allowed (when set). -/
def rejectedByDomain (f : UrlFilterer) (p : ParseResult) : Bool :=
  match f.allowed_domains with
  | none => false
  | some s => !(decide (String.mk p.netloc ∈ s))

/-- Rule 3: `pathlib` suffix of the (params-stripped) path not allowed
(when set). -/
def rejectedByFiletype (f : UrlFilterer) (p : ParseResult) : Bool :=
  match f.allowed_filetypes with
  | none => false
  | some s => !(decide (String.mk (pathSuffix p.path) ∈ s))

/-- Rule 4: some blocked phrase occurs in the defragmented url (when set). -/
def rejectedByBlocked (f : UrlFilterer) (url : List Char) : Bool :=
  match f.blocked_phrases with
  | none => false
  | some b => b.any (fun ph => listHasSub ph.toList url)

/-- The four `if ...: return None` checks of `filter_url`, in source order. -/
def checkRules (f : UrlFilterer) (url : List Char) (p : ParseResult) : Option (List Char) :=
  if rejectedByScheme f p then none
  else if rejectedByDomain f p then none
  else if rejectedByFiletype f p then none
  else if rejectedByBlocked f url then none
  else some url

/-- `UrlFilterer.filter_url` on character lists: join, defragment, parse,
apply the rules. -/
def filterUrlL (f : UrlFilterer) (base url : List Char) : Except String (Option (List Char)) :=
  match urljoinL base url with
  | .error e => .error e
  | .ok j =>
    match urldefragL j with
    | .error e => .error e
    | .ok u2f =>
      match urlparseL u2f.1 [] with
      | .error e => .error e
      | .ok p => .ok (checkRules f u2f.1 p)

/-- `UrlFilterer.filter_url` (lines 27-44): `.error` models a raised
exception, `.ok none` a rejection, `.ok (some u)` the returned address. -/
def UrlFilterer.filter_url (f : UrlFilterer) (base url : String) :
    Except String (Option String) :=
  (filterUrlL f base.toList url.toList).map (fun o => o.map fun l => String.mk l)

/-- Modelled from the spec (claim C5): "the path's file extension (the
substring after the last `.` in the final path segment, or empty string if
none)", the dot included (as the spec's own `allowedFileExtensions` examples
`{"", ".html"}` show); the final path segment is the part after the last
`/`. -/
def specExtension (path : List Char) : List Char :=
  let seg := ((splitOnChar '/' path).getLast?).getD []
  match splitAtLast '.' seg with
  | none => []
  | some (_, b) => '.' :: b

example : pathSuffix "/a/b.html".toList = ".html".toList := by decide
example : pathSuffix "/a/.bashrc".toList = [] := by decide
example : specExtension "/a/.bashrc".toList = ".bashrc".toList := by decide
example : pathSuffix "/codex/spells/".toList = [] := by decide

/-! ### Helper lemmas for the URL machinery -/

theorem char_ofNat_add32 (m : Nat) (h1 : 65 ≤ m) (h2 : m ≤ 90) :
    Char.ofNat (m + 32) ≠ '[' ∧ Char.ofNat (m + 32) ≠ ']' ∧ Char.ofNat (m + 32) ≠ '#' := by
  interval_cases m <;> exact ⟨by decide, by decide, by decide⟩

/-- ASCII lowercasing cannot produce (or remove) a square bracket or a hash
character. -/
theorem toLower_special {c t : Char} (ht : t = '[' ∨ t = ']' ∨ t = '#')
    (h : c.toLower = t) : c = t := by
  simp only [Char.toLower] at h
  split at h
  · rename_i hr
    exfalso
    obtain ⟨e1, e2, e3⟩ := char_ofNat_add32 c.toNat hr.1 hr.2
    rcases ht with rfl | rfl | rfl
    · exact e1 h
    · exact e2 h
    · exact e3 h
  · exact h

theorem splitAtFirst_nil {c : Char} : splitAtFirst c ([] : List Char) = none := rfl

theorem splitAtFirst_cons {c x : Char} {xs : List Char} :
    splitAtFirst c (x :: xs) =
      if x = c then some ([], xs)
      else
        match splitAtFirst c xs with
        | none => none
        | some (a, b) => some (x :: a, b) := rfl

theorem splitAtFirst_some {c : Char} :
    ∀ {l a b : List Char}, splitAtFirst c l = some (a, b) → l = a ++ c :: b ∧ c ∉ a := by
  intro l
  induction l with
  | nil => intro a b h; simp [splitAtFirst_nil] at h
  | cons x xs ih =>
    intro a b h
    rw [splitAtFirst_cons] at h
    by_cases hx : x = c
    · rw [if_pos hx] at h
      simp only [Option.some.injEq, Prod.mk.injEq] at h
      obtain ⟨h1, h2⟩ := h
      subst h1; subst h2; subst hx
      exact ⟨rfl, by simp⟩
    · rw [if_neg hx] at h
      cases h1 : splitAtFirst c xs with
      | none => rw [h1] at h; simp at h
      | some p =>
        obtain ⟨p1, p2⟩ := p
        rw [h1] at h
        simp only [Option.some.injEq, Prod.mk.injEq] at h
        obtain ⟨h2, h3⟩ := h
        subst h2; subst h3
        obtain ⟨h2, h3⟩ := ih h1
        refine ⟨by rw [List.cons_append, ← h2], ?_⟩
        intro hc
        rcases List.mem_cons.mp hc with hc | hc
        · exact hx hc.symm
        · exact h3 hc

theorem splitAtFirst_none {c : Char} :
    ∀ {l : List Char}, c ∉ l → splitAtFirst c l = none := by
  intro l
  induction l with
  | nil => intro _; rfl
  | cons x xs ih =>
    intro h
    have hx : x ≠ c := fun hc => h (by simp [hc])
    have hxs : c ∉ xs := fun hc => h (List.mem_cons_of_mem _ hc)
    simp only [splitAtFirst, if_neg hx, ih hxs]

theorem splitAtFirst_append {c : Char} (a b : List Char) :
    splitAtFirst c (a ++ b) =
      match splitAtFirst c a with
      | some (x, y) => some (x, y ++ b)
      | none =>
        match splitAtFirst c b with
        | none => none
        | some (x, y) => some (a ++ x, y) := by
  induction a with
  | nil =>
    rw [List.nil_append, splitAtFirst_nil]
    cases h : splitAtFirst c b with
    | none => simp
    | some p => obtain ⟨p1, p2⟩ := p; simp
  | cons x xs ih =>
    rw [List.cons_append, splitAtFirst_cons, splitAtFirst_cons, ih]
    by_cases hx : x = c
    · rw [if_pos hx, if_pos hx]
    · rw [if_neg hx, if_neg hx]
      cases h1 : splitAtFirst c xs with
      | none =>
        cases h2 : splitAtFirst c b with
        | none => simp
        | some p => obtain ⟨p1, p2⟩ := p; simp
      | some p => obtain ⟨p1, p2⟩ := p; simp

/-- Parts of `splitAtFirst` are made of characters of the input. -/
theorem splitAtFirst_subset {c : Char} {l a b : List Char}
    (h : splitAtFirst c l = some (a, b)) : a ⊆ l ∧ b ⊆ l := by
  obtain ⟨hl, _⟩ := splitAtFirst_some h
  subst hl
  constructor
  · intro x hx
    exact List.mem_append_left _ hx
  · intro x hx
    exact List.mem_append_right _ (List.mem_cons_of_mem _ hx)

theorem splitAtLast_subset {c : Char} {l a b : List Char}
    (h : splitAtLast c l = some (a, b)) : a ⊆ l ∧ b ⊆ l := by
  unfold splitAtLast at h
  cases h1 : splitAtFirst c l.reverse with
  | none => rw [h1] at h; simp at h
  | some p =>
    obtain ⟨p1, p2⟩ := p
    rw [h1] at h
    simp only [Option.some.injEq, Prod.mk.injEq] at h
    obtain ⟨h2, h3⟩ := h
    subst h2; subst h3
    obtain ⟨hs1, hs2⟩ := splitAtFirst_subset h1
    constructor
    · intro x hx
      exact List.mem_reverse.mp (hs2 (List.mem_reverse.mp hx))
    · intro x hx
      exact List.mem_reverse.mp (hs1 (List.mem_reverse.mp hx))

theorem splitAtFirst_none_iff {c : Char} :
    ∀ {l : List Char}, splitAtFirst c l = none ↔ c ∉ l := by
  intro l
  constructor
  · intro h hc
    induction l with
    | nil => simp at hc
    | cons x xs ih =>
      rw [splitAtFirst_cons] at h
      by_cases hx : x = c
      · rw [if_pos hx] at h; simp at h
      · rw [if_neg hx] at h
        cases h1 : splitAtFirst c xs with
        | none =>
          rcases List.mem_cons.mp hc with hc | hc
          · exact hx hc.symm
          · exact ih h1 hc
        | some p => obtain ⟨p1, p2⟩ := p; rw [h1] at h; simp at h
  · exact splitAtFirst_none

theorem splitOnChar_mem {c : Char} :
    ∀ {l : List Char} {s : List Char} {x : Char},
      s ∈ splitOnChar c l → x ∈ s → x ∈ l := by
  intro l
  induction l with
  | nil =>
    intro s x hs hx
    simp only [splitOnChar, List.mem_singleton] at hs
    subst hs
    simp at hx
  | cons y ys ih =>
    intro s x hs hx
    by_cases hy : y = c
    · rw [splitOnChar, if_pos hy] at hs
      rcases List.mem_cons.mp hs with hs | hs
      · subst hs; simp at hx
      · exact List.mem_cons_of_mem _ (ih hs hx)
    · rw [splitOnChar, if_neg hy] at hs
      cases h1 : splitOnChar c ys with
      | nil =>
        rw [h1] at hs
        simp only [List.mem_singleton] at hs
        subst hs
        rcases List.mem_cons.mp hx with hx | hx
        · simp [hx]
        · simp at hx
      | cons h0 t0 =>
        rw [h1] at hs
        rcases List.mem_cons.mp hs with hs | hs
        · subst hs
          rcases List.mem_cons.mp hx with hx | hx
          · simp [hx]
          · exact List.mem_cons_of_mem _ (ih (h1 ▸ List.mem_cons_self h0 t0) hx)
        · exact List.mem_cons_of_mem _ (ih (h1 ▸ List.mem_cons_of_mem _ hs) hx)

theorem keepLastFilter_mem :
    ∀ {l : List (List Char)} {s : List Char}, s ∈ keepLastFilter l → s ∈ l := by
  intro l
  induction l with
  | nil => intro s h; simp [keepLastFilter] at h
  | cons x xs ih =>
    intro s h
    cases xs with
    | nil => simpa [keepLastFilter] using h
    | cons y t =>
      have hunf : keepLastFilter (x :: y :: t) =
          if x = [] then keepLastFilter (y :: t) else x :: keepLastFilter (y :: t) := rfl
      rw [hunf] at h
      split at h
      · exact List.mem_cons_of_mem _ (ih h)
      · rcases List.mem_cons.mp h with h | h
        · simp [h]
        · exact List.mem_cons_of_mem _ (ih h)

theorem middleFilter_mem {l : List (List Char)} {s : List Char}
    (h : s ∈ middleFilter l) : s ∈ l := by
  cases l with
  | nil => simp [middleFilter] at h
  | cons a rest =>
    rw [middleFilter] at h
    rcases List.mem_cons.mp h with h | h
    · simp [h]
    · exact List.mem_cons_of_mem _ (keepLastFilter_mem h)

theorem foldl_resolve_mem :
    ∀ (segs : List (List Char)) (acc : List (List Char)) (s : List Char),
      s ∈ segs.foldl
        (fun acc seg =>
          if seg = ['.', '.'] then acc.dropLast
          else if seg = ['.'] then acc
          else acc ++ [seg]) acc →
      s ∈ acc ∨ s ∈ segs := by
  intro segs
  induction segs with
  | nil => intro acc s h; exact Or.inl h
  | cons g gs ih =>
    intro acc s h
    rw [List.foldl_cons] at h
    rcases ih _ s h with h1 | h1
    · split at h1
      · exact Or.inl (List.mem_of_mem_dropLast h1)
      · split at h1
        · exact Or.inl h1
        · rcases List.mem_append.mp h1 with h2 | h2
          · exact Or.inl h2
          · right
            simp only [List.mem_singleton] at h2
            simp [h2]
    · exact Or.inr (List.mem_cons_of_mem _ h1)

theorem resolveSegs_mem {segs : List (List Char)} {s : List Char}
    (h : s ∈ resolveSegs segs) : s ∈ segs := by
  rcases foldl_resolve_mem segs [] s h with h1 | h1
  · simp at h1
  · exact h1

theorem intersperse_mem {sep : List Char} :
    ∀ {l : List (List Char)} {s : List Char},
      s ∈ List.intersperse sep l → s = sep ∨ s ∈ l := by
  intro l
  induction l with
  | nil => intro s h; simp [List.intersperse] at h
  | cons x xs ih =>
    intro s h
    cases xs with
    | nil =>
      simp only [List.intersperse_singleton, List.mem_singleton] at h
      exact Or.inr (by simp [h])
    | cons y t =>
      rw [List.intersperse_cons_cons] at h
      rcases List.mem_cons.mp h with h | h
      · exact Or.inr (by simp [h])
      · rcases List.mem_cons.mp h with h | h
        · exact Or.inl h
        · rcases ih h with h | h
          · exact Or.inl h
          · exact Or.inr (List.mem_cons_of_mem _ h)

theorem intercalate_mem {parts : List (List Char)} {x : Char}
    (h : x ∈ List.intercalate ['/'] parts) : x = '/' ∨ ∃ s ∈ parts, x ∈ s := by
  rw [List.intercalate] at h
  rcases List.mem_flatten.mp h with ⟨s, hs, hx⟩
  rcases intersperse_mem hs with hs | hs
  · subst hs
    simp only [List.mem_singleton] at hx
    exact Or.inl hx
  · exact Or.inr ⟨s, hs, hx⟩

theorem mergeBaseParts_mem {bpath : List Char} {s : List Char}
    (h : s ∈ mergeBaseParts bpath) : s ∈ splitOnChar '/' bpath := by
  rw [mergeBaseParts] at h
  split at h
  · exact List.mem_of_mem_dropLast h
  · exact h

theorem mergeSegs_mem {bpath rpath : List Char} {s : List Char} {x : Char}
    (hs : s ∈ mergeSegs bpath rpath) (hx : x ∈ s) : x ∈ bpath ∨ x ∈ rpath := by
  rw [mergeSegs] at hs
  split at hs
  · exact Or.inr (splitOnChar_mem hs hx)
  · have h2 := middleFilter_mem hs
    rcases List.mem_append.mp h2 with h2 | h2
    · exact Or.inl (splitOnChar_mem (mergeBaseParts_mem h2) hx)
    · exact Or.inr (splitOnChar_mem h2 hx)

theorem mergedResolved_mem {bpath rpath : List Char} {s : List Char}
    (h : s ∈ mergedResolved bpath rpath) : s = [] ∨ s ∈ mergeSegs bpath rpath := by
  rw [mergedResolved] at h
  split at h
  · rcases List.mem_append.mp h with h1 | h1
    · exact Or.inr (resolveSegs_mem h1)
    · simp only [List.mem_singleton] at h1
      exact Or.inl h1
  · exact Or.inr (resolveSegs_mem h)

theorem mergeSegments_mem {bpath rpath : List Char} {x : Char}
    (h : x ∈ mergeSegments bpath rpath) : x ∈ bpath ∨ x ∈ rpath ∨ x = '/' := by
  rw [mergeSegments] at h
  split at h
  · simp only [List.mem_singleton] at h
    exact Or.inr (Or.inr h)
  · rcases intercalate_mem h with h1 | ⟨s, hs, hx⟩
    · exact Or.inr (Or.inr h1)
    · rcases mergedResolved_mem hs with h2 | h2
      · subst h2; simp at hx
      · rcases mergeSegs_mem h2 hx with h3 | h3
        · exact Or.inl h3
        · exact Or.inr (Or.inl h3)

/-! ### Facts about the parser's components -/

theorem schemeSplit_snd_subset (l d : List Char) : (schemeSplit l d).2 ⊆ l := by
  cases h : splitAtFirst ':' l with
  | none => simp only [schemeSplit, h]; exact fun x hx => hx
  | some p =>
    obtain ⟨pre, post⟩ := p
    have hsub := (splitAtFirst_subset h).2
    cases pre with
    | nil => simp only [schemeSplit, h]; exact fun x hx => hx
    | cons c0 rest =>
      simp only [schemeSplit, h]
      split
      · exact hsub
      · exact fun x hx => hx

theorem schemeSplit_fst_cases (l d : List Char) :
    (schemeSplit l d).1 = d ∨
      ∃ pre, pre ⊆ l ∧ pre.all schemeChar = true ∧
        (schemeSplit l d).1 = pre.map Char.toLower := by
  cases h : splitAtFirst ':' l with
  | none => left; simp only [schemeSplit, h]
  | some p =>
    obtain ⟨pre, post⟩ := p
    have hsub := (splitAtFirst_subset h).1
    cases pre with
    | nil => left; simp only [schemeSplit, h]
    | cons c0 rest =>
      simp only [schemeSplit, h]
      split
      · rename_i hcond
        right
        exact ⟨c0 :: rest, hsub, (Bool.and_eq_true _ _ ▸ hcond).2, rfl⟩
      · left; rfl

theorem netlocSplit_fst_subset (r : List Char) : (netlocSplit r).1 ⊆ r := by
  rw [netlocSplit]
  split
  · exact (List.takeWhile_subset _).trans (List.drop_subset _ _)
  · simp

theorem netlocSplit_fst_delim {r : List Char} {x : Char}
    (hx : x ∈ (netlocSplit r).1) : netlocDelim x = false := by
  rw [netlocSplit] at hx
  split at hx
  · have := List.mem_takeWhile_imp hx
    simpa using this
  · simp at hx

theorem netlocSplit_snd_subset (r : List Char) : (netlocSplit r).2 ⊆ r := by
  rw [netlocSplit]
  split
  · exact (List.dropWhile_subset _).trans (List.drop_subset _ _)
  · exact fun x hx => hx

theorem fragSplit_fst_subset (r : List Char) : (fragSplit r).1 ⊆ r := by
  rw [fragSplit]
  cases h : splitAtFirst '#' r with
  | none => exact fun x hx => hx
  | some p =>
    obtain ⟨a, b⟩ := p
    exact (splitAtFirst_subset h).1

theorem fragSplit_fst_no_hash (r : List Char) : '#' ∉ (fragSplit r).1 := by
  rw [fragSplit]
  cases h : splitAtFirst '#' r with
  | none => exact splitAtFirst_none_iff.mp h
  | some p =>
    obtain ⟨a, b⟩ := p
    exact (splitAtFirst_some h).2

theorem fragSplit_snd_subset (r : List Char) : (fragSplit r).2 ⊆ r := by
  rw [fragSplit]
  cases h : splitAtFirst '#' r with
  | none => simp
  | some p =>
    obtain ⟨a, b⟩ := p
    exact (splitAtFirst_subset h).2

theorem querySplit_fst_subset (r : List Char) : (querySplit r).1 ⊆ r := by
  rw [querySplit]
  cases h : splitAtFirst '?' r with
  | none => exact fun x hx => hx
  | some p =>
    obtain ⟨a, b⟩ := p
    exact (splitAtFirst_subset h).1

theorem querySplit_snd_subset (r : List Char) : (querySplit r).2 ⊆ r := by
  rw [querySplit]
  cases h : splitAtFirst '?' r with
  | none => simp
  | some p =>
    obtain ⟨a, b⟩ := p
    exact (splitAtFirst_subset h).2

theorem splitParamsL_fst_mem {p : List Char} {x : Char}
    (h : x ∈ (splitParamsL p).1) : x ∈ p ∨ x = '/' := by
  rw [splitParamsL] at h
  split at h
  · split at h
    · cases h1 : splitAtLast '/' p with
      | none => rw [h1] at h; exact Or.inl h
      | some q =>
        obtain ⟨a, b⟩ := q
        rw [h1] at h
        dsimp only at h
        obtain ⟨ha, hb⟩ := splitAtLast_subset h1
        cases h2 : splitAtFirst ';' b with
        | none => rw [h2] at h; exact Or.inl h
        | some q2 =>
          obtain ⟨b1, b2⟩ := q2
          rw [h2] at h
          dsimp only at h
          rcases List.mem_append.mp h with h3 | h3
          · exact Or.inl (ha h3)
          · rcases List.mem_cons.mp h3 with h3 | h3
            · exact Or.inr h3
            · exact Or.inl (hb ((splitAtFirst_subset h2).1 h3))
    · cases h2 : splitAtFirst ';' p with
      | none => rw [h2] at h; exact Or.inl h
      | some q2 =>
        obtain ⟨p1, p2⟩ := q2
        rw [h2] at h
        dsimp only at h
        exact Or.inl ((splitAtFirst_subset h2).1 h)
  · exact Or.inl h

theorem splitParamsL_snd_subset (p : List Char) : (splitParamsL p).2 ⊆ p := by
  rw [splitParamsL]
  split
  · split
    · cases h1 : splitAtLast '/' p with
      | none => simp
      | some q =>
        obtain ⟨a, b⟩ := q
        dsimp only
        obtain ⟨ha, hb⟩ := splitAtLast_subset h1
        cases h2 : splitAtFirst ';' b with
        | none => simp [h2]
        | some q2 =>
          obtain ⟨b1, b2⟩ := q2
          dsimp only
          exact fun x hx => hb ((splitAtFirst_subset h2).2 hx)
    · cases h2 : splitAtFirst ';' p with
      | none => simp
      | some q2 =>
        obtain ⟨p1, p2⟩ := q2
        dsimp only
        exact (splitAtFirst_subset h2).2
  · simp

theorem urlsplitL_ok_elim {l d : List Char} {s : SplitResult}
    (h : urlsplitL l d = .ok s) :
    s.scheme = (schemeSplit (l.dropWhile (fun c => c = ' ')) d).1 ∧
    s.netloc = (netlocSplit (schemeSplit (l.dropWhile (fun c => c = ' ')) d).2).1 ∧
    s.path =
      (querySplit (fragSplit
        (netlocSplit (schemeSplit (l.dropWhile (fun c => c = ' ')) d).2).2).1).1 ∧
    s.query =
      (querySplit (fragSplit
        (netlocSplit (schemeSplit (l.dropWhile (fun c => c = ' ')) d).2).2).1).2 ∧
    s.fragment =
      (fragSplit (netlocSplit (schemeSplit (l.dropWhile (fun c => c = ' ')) d).2).2).2 := by
  simp only [urlsplitL] at h
  split at h
  · simp at h
  · rw [Except.ok.injEq] at h
    subst h
    exact ⟨rfl, rfl, rfl, rfl, rfl⟩

theorem urlsplitL_ok_of_no_brackets (l d : List Char) (h1 : '[' ∉ l) (h2 : ']' ∉ l) :
    ∃ s, urlsplitL l d = .ok s := by
  have hn : (netlocSplit (schemeSplit (l.dropWhile (fun c => c = ' ')) d).2).1 ⊆ l :=
    (netlocSplit_fst_subset _).trans
      ((schemeSplit_snd_subset _ _).trans (List.dropWhile_subset _))
  simp only [urlsplitL]
  rw [if_neg]
  · exact ⟨_, rfl⟩
  · intro hcond
    rcases hcond with ⟨hc, _⟩ | ⟨hc, _⟩
    · exact h1 (hn hc)
    · exact h2 (hn hc)

theorem urlsplitL_ok_subsets {l d : List Char} {s : SplitResult}
    (h : urlsplitL l d = .ok s) :
    s.netloc ⊆ l ∧ s.path ⊆ l ∧ s.query ⊆ l ∧ s.fragment ⊆ l := by
  obtain ⟨_, h2, h3, h4, h5⟩ := urlsplitL_ok_elim h
  have hl1 : List.dropWhile (fun c => c = ' ') l ⊆ l := List.dropWhile_subset _
  have hrest : (schemeSplit (l.dropWhile (fun c => c = ' ')) d).2 ⊆ l :=
    (schemeSplit_snd_subset _ _).trans hl1
  have hrest2 : (netlocSplit (schemeSplit (l.dropWhile (fun c => c = ' ')) d).2).2 ⊆ l :=
    (netlocSplit_snd_subset _).trans hrest
  have hfp : (fragSplit (netlocSplit
      (schemeSplit (l.dropWhile (fun c => c = ' ')) d).2).2).1 ⊆ l :=
    (fragSplit_fst_subset _).trans hrest2
  refine ⟨?_, ?_, ?_, ?_⟩
  · rw [h2]; exact (netlocSplit_fst_subset _).trans hrest
  · rw [h3]; exact (querySplit_fst_subset _).trans hfp
  · rw [h4]; exact (querySplit_snd_subset _).trans hfp
  · rw [h5]; exact (fragSplit_snd_subset _).trans hrest2

theorem urlsplitL_ok_scheme_not_mem {l d : List Char} {s : SplitResult} {t : Char}
    (ht : t = '[' ∨ t = ']' ∨ t = '#') (h : urlsplitL l d = .ok s)
    (hl : t ∉ l) (hd : t ∉ d) : t ∉ s.scheme := by
  obtain ⟨h1, _, _, _, _⟩ := urlsplitL_ok_elim h
  rw [h1]
  rcases schemeSplit_fst_cases (l.dropWhile (fun c => c = ' ')) d with hc | ⟨pre, hpre, _, hc⟩
  · rw [hc]; exact hd
  · rw [hc]
    intro hmem
    rcases List.mem_map.mp hmem with ⟨y, hy, hyt⟩
    have hyt2 : y = t := toLower_special ht hyt
    subst hyt2
    exact hl (List.dropWhile_subset _ (hpre hy))

theorem urlsplitL_ok_no_hash {l d : List Char} {s : SplitResult}
    (h : urlsplitL l d = .ok s) (hd : '#' ∉ d) :
    '#' ∉ s.scheme ∧ '#' ∉ s.netloc ∧ '#' ∉ s.path ∧ '#' ∉ s.query := by
  obtain ⟨h1, h2, h3, h4, _⟩ := urlsplitL_ok_elim h
  refine ⟨?_, ?_, ?_, ?_⟩
  · rw [h1]
    rcases schemeSplit_fst_cases (l.dropWhile (fun c => c = ' ')) d with
      hc | ⟨pre, _, hall, hc⟩
    · rw [hc]; exact hd
    · rw [hc]
      intro hmem
      rcases List.mem_map.mp hmem with ⟨y, hy, hyt⟩
      have hyt2 : y = '#' := toLower_special (by simp) hyt
      subst hyt2
      have := List.all_eq_true.mp hall _ hy
      simp [schemeChar] at this
  · rw [h2]
    intro hmem
    have := netlocSplit_fst_delim hmem
    simp [netlocDelim] at this
  · rw [h3]
    intro hmem
    exact fragSplit_fst_no_hash _ (querySplit_fst_subset _ hmem)
  · rw [h4]
    intro hmem
    exact fragSplit_fst_no_hash _ (querySplit_snd_subset _ hmem)

theorem urlparseL_ok_elim {l d : List Char} {p : ParseResult}
    (h : urlparseL l d = .ok p) :
    ∃ s, urlsplitL l d = .ok s ∧ p.scheme = s.scheme ∧ p.netloc = s.netloc ∧
      p.path = (splitParamsL s.path).1 ∧ p.params = (splitParamsL s.path).2 ∧
      p.query = s.query ∧ p.fragment = s.fragment := by
  rw [urlparseL] at h
  cases hs : urlsplitL l d with
  | error e => rw [hs] at h; simp at h
  | ok s =>
    rw [hs] at h
    simp only [Except.ok.injEq] at h
    subst h
    exact ⟨s, rfl, rfl, rfl, rfl, rfl, rfl, rfl⟩

theorem urlparseL_ok_not_mem {l d : List Char} {p : ParseResult} {t : Char}
    (ht : t = '[' ∨ t = ']' ∨ t = '#') (h : urlparseL l d = .ok p)
    (hl : t ∉ l) (hd : t ∉ d) :
    t ∉ p.scheme ∧ t ∉ p.netloc ∧ t ∉ p.path ∧ t ∉ p.params ∧ t ∉ p.query ∧
      t ∉ p.fragment := by
  obtain ⟨s, hs, e1, e2, e3, e4, e5, e6⟩ := urlparseL_ok_elim h
  obtain ⟨n1, n2, n3, n4⟩ := urlsplitL_ok_subsets hs
  have htslash : t ≠ '/' := by
    rcases ht with rfl | rfl | rfl <;> decide
  refine ⟨?_, ?_, ?_, ?_, ?_, ?_⟩
  · rw [e1]; exact urlsplitL_ok_scheme_not_mem ht hs hl hd
  · rw [e2]; intro hm; exact hl (n1 hm)
  · rw [e3]
    intro hm
    rcases splitParamsL_fst_mem hm with hm | hm
    · exact hl (n2 hm)
    · exact htslash hm
  · rw [e4]; intro hm; exact hl (n2 (splitParamsL_snd_subset _ hm))
  · rw [e5]; intro hm; exact hl (n3 hm)
  · rw [e6]; intro hm; exact hl (n4 hm)

theorem urlparseL_ok_no_hash {l d : List Char} {p : ParseResult}
    (h : urlparseL l d = .ok p) (hd : '#' ∉ d) :
    '#' ∉ p.scheme ∧ '#' ∉ p.netloc ∧ '#' ∉ p.path ∧ '#' ∉ p.params ∧ '#' ∉ p.query := by
  obtain ⟨s, hs, e1, e2, e3, e4, e5, _⟩ := urlparseL_ok_elim h
  obtain ⟨g1, g2, g3, g4⟩ := urlsplitL_ok_no_hash hs hd
  refine ⟨?_, ?_, ?_, ?_, ?_⟩
  · rw [e1]; exact g1
  · rw [e2]; exact g2
  · rw [e3]
    intro hm
    rcases splitParamsL_fst_mem hm with hm | hm
    · exact g3 hm
    · simp at hm
  · rw [e4]; intro hm; exact g3 (splitParamsL_snd_subset _ hm)
  · rw [e5]; exact g4

theorem urlparseL_ok_of_no_brackets (l d : List Char) (h1 : '[' ∉ l) (h2 : ']' ∉ l) :
    ∃ p, urlparseL l d = .ok p := by
  obtain ⟨s, hs⟩ := urlsplitL_ok_of_no_brackets l d h1 h2
  rw [urlparseL, hs]
  exact ⟨_, rfl⟩

/-! ### Characters of the serializers -/

theorem unsplitAuthority_mem {s n p : List Char} {x : Char}
    (hx : x ∈ unsplitAuthority s n p) : x ∈ n ∨ x ∈ p ∨ x = '/' := by
  rw [unsplitAuthority] at hx
  split at hx
  · rcases List.mem_append.mp hx with hx | hx
    · rcases List.mem_append.mp hx with hx | hx
      · right; right
        simpa using hx
      · exact Or.inl hx
    · split at hx
      · rcases List.mem_cons.mp hx with hx | hx
        · exact Or.inr (Or.inr hx)
        · exact Or.inr (Or.inl hx)
      · exact Or.inr (Or.inl hx)
  · exact Or.inr (Or.inl hx)

theorem unsplitScheme_mem {s n p : List Char} {x : Char}
    (hx : x ∈ unsplitScheme s n p) :
    x ∈ s ∨ x ∈ n ∨ x ∈ p ∨ x = '/' ∨ x = ':' := by
  rw [unsplitScheme] at hx
  split at hx
  · rcases List.mem_append.mp hx with hx | hx
    · exact Or.inl hx
    · rcases List.mem_cons.mp hx with hx | hx
      · exact Or.inr (Or.inr (Or.inr (Or.inr hx)))
      · rcases unsplitAuthority_mem hx with h | h | h
        · exact Or.inr (Or.inl h)
        · exact Or.inr (Or.inr (Or.inl h))
        · exact Or.inr (Or.inr (Or.inr (Or.inl h)))
  · rcases unsplitAuthority_mem hx with h | h | h
    · exact Or.inr (Or.inl h)
    · exact Or.inr (Or.inr (Or.inl h))
    · exact Or.inr (Or.inr (Or.inr (Or.inl h)))

theorem unsplitQuery_mem {s n p q : List Char} {x : Char}
    (hx : x ∈ unsplitQuery s n p q) :
    x ∈ s ∨ x ∈ n ∨ x ∈ p ∨ x ∈ q ∨ x = '/' ∨ x = ':' ∨ x = '?' := by
  rw [unsplitQuery] at hx
  split at hx
  · rcases List.mem_append.mp hx with hx | hx
    · rcases unsplitScheme_mem hx with h | h | h | h | h
      · exact Or.inl h
      · exact Or.inr (Or.inl h)
      · exact Or.inr (Or.inr (Or.inl h))
      · exact Or.inr (Or.inr (Or.inr (Or.inr (Or.inl h))))
      · exact Or.inr (Or.inr (Or.inr (Or.inr (Or.inr (Or.inl h)))))
    · rcases List.mem_cons.mp hx with hx | hx
      · exact Or.inr (Or.inr (Or.inr (Or.inr (Or.inr (Or.inr hx)))))
      · exact Or.inr (Or.inr (Or.inr (Or.inl hx)))
  · rcases unsplitScheme_mem hx with h | h | h | h | h
    · exact Or.inl h
    · exact Or.inr (Or.inl h)
    · exact Or.inr (Or.inr (Or.inl h))
    · exact Or.inr (Or.inr (Or.inr (Or.inr (Or.inl h))))
    · exact Or.inr (Or.inr (Or.inr (Or.inr (Or.inr (Or.inl h)))))

theorem urlunsplitL_mem {s n p q f : List Char} {x : Char}
    (hx : x ∈ urlunsplitL s n p q f) :
    x ∈ s ∨ x ∈ n ∨ x ∈ p ∨ x ∈ q ∨ x ∈ f ∨ x = '/' ∨ x = ':' ∨ x = '?' ∨
      (x = '#' ∧ f ≠ []) := by
  rw [urlunsplitL] at hx
  split at hx
  · rename_i hf
    rcases List.mem_append.mp hx with hx | hx
    · rcases unsplitQuery_mem hx with h | h | h | h | h | h | h
      · exact Or.inl h
      · exact Or.inr (Or.inl h)
      · exact Or.inr (Or.inr (Or.inl h))
      · exact Or.inr (Or.inr (Or.inr (Or.inl h)))
      · exact Or.inr (Or.inr (Or.inr (Or.inr (Or.inr (Or.inl h)))))
      · exact Or.inr (Or.inr (Or.inr (Or.inr (Or.inr (Or.inr (Or.inl h))))))
      · exact Or.inr (Or.inr (Or.inr (Or.inr (Or.inr (Or.inr (Or.inr (Or.inl h)))))))
    · rcases List.mem_cons.mp hx with hx | hx
      · exact Or.inr (Or.inr (Or.inr (Or.inr (Or.inr (Or.inr (Or.inr (Or.inr ⟨hx, hf⟩)))))))
      · exact Or.inr (Or.inr (Or.inr (Or.inr (Or.inl hx))))
  · rcases unsplitQuery_mem hx with h | h | h | h | h | h | h
    · exact Or.inl h
    · exact Or.inr (Or.inl h)
    · exact Or.inr (Or.inr (Or.inl h))
    · exact Or.inr (Or.inr (Or.inr (Or.inl h)))
    · exact Or.inr (Or.inr (Or.inr (Or.inr (Or.inr (Or.inl h)))))
    · exact Or.inr (Or.inr (Or.inr (Or.inr (Or.inr (Or.inr (Or.inl h))))))
    · exact Or.inr (Or.inr (Or.inr (Or.inr (Or.inr (Or.inr (Or.inr (Or.inl h)))))))

theorem urlunsplitL_not_mem {s n p q f : List Char} {t : Char}
    (h1 : t ∉ s) (h2 : t ∉ n) (h3 : t ∉ p) (h4 : t ∉ q) (h5 : t ∉ f)
    (hsep : t ≠ '/' ∧ t ≠ ':' ∧ t ≠ '?' ∧ (t = '#' → f = [])) :
    t ∉ urlunsplitL s n p q f := by
  intro hmem
  rcases urlunsplitL_mem hmem with h | h | h | h | h | h | h | h | ⟨h, hf⟩
  · exact h1 h
  · exact h2 h
  · exact h3 h
  · exact h4 h
  · exact h5 h
  · exact hsep.1 h
  · exact hsep.2.1 h
  · exact hsep.2.2.1 h
  · exact hf (hsep.2.2.2 h)

theorem urlunparseL_not_mem {pr : ParseResult} {t : Char}
    (hs : t ∉ pr.scheme) (hn : t ∉ pr.netloc) (hp : t ∉ pr.path) (hpa : t ∉ pr.params)
    (hq : t ∉ pr.query) (hf : t ∉ pr.fragment)
    (hsep : t ≠ '/' ∧ t ≠ ':' ∧ t ≠ '?' ∧ t ≠ ';' ∧ (t = '#' → pr.fragment = [])) :
    t ∉ urlunparseL pr := by
  simp only [urlunparseL]
  apply urlunsplitL_not_mem hs hn ?_ hq hf ⟨hsep.1, hsep.2.1, hsep.2.2.1, hsep.2.2.2.2⟩
  split
  · intro hm
    rcases List.mem_append.mp hm with hm | hm
    · exact hp hm
    · rcases List.mem_cons.mp hm with hm | hm
      · exact hsep.2.2.2.1 hm
      · exact hpa hm
  · exact hp

theorem mergeSegments_not_mem {bpath rpath : List Char} {t : Char}
    (h1 : t ∉ bpath) (h2 : t ∉ rpath) (h3 : t ≠ '/') :
    t ∉ mergeSegments bpath rpath := by
  intro hm
  rcases mergeSegments_mem hm with h | h | h
  · exact h1 h
  · exact h2 h
  · exact h3 h

theorem joinParsed_not_mem {b r : ParseResult} {url : List Char} {t : Char}
    (hbn : t ∉ b.netloc) (hbp : t ∉ b.path) (hbpa : t ∉ b.params) (hbq : t ∉ b.query)
    (hrs : t ∉ r.scheme) (hrn : t ∉ r.netloc) (hrp : t ∉ r.path) (hrpa : t ∉ r.params)
    (hrq : t ∉ r.query) (hrf : t ∉ r.fragment) (hurl : t ∉ url)
    (hsep : t ≠ '/' ∧ t ≠ ':' ∧ t ≠ '?' ∧ t ≠ ';' ∧ (t = '#' → r.fragment = [])) :
    t ∉ joinParsed b r url := by
  simp only [joinParsed]
  split
  · exact hurl
  · split
    · exact urlunparseL_not_mem hrs hrn hrp hrpa hrq hrf hsep
    · have hnl : t ∉ (if r.scheme ∈ usesNetloc then b.netloc else r.netloc) := by
        split
        · exact hbn
        · exact hrn
      split
    
      · refine @urlunparseL_not_mem ⟨r.scheme, _, b.path, b.params, _, r.fragment⟩ t
          hrs hnl hbp hbpa ?_ hrf hsep
        show t ∉ (if r.query = [] then b.query else r.query)
        split
        · exact hbq
        · exact hrq
      · exact @urlunparseL_not_mem ⟨r.scheme, _, mergeSegments b.path r.path,
          r.params, r.query, r.fragment⟩ t hrs hnl
          (mergeSegments_not_mem hbp hrp hsep.1) hrpa hrq hrf hsep

/-! ### Totality of `filter_url` on bracket-free input (claim C6) -/

theorem urljoinL_ok_no_brackets {base url : List Char}
    (hb1 : '[' ∉ base) (hb2 : ']' ∉ base) (hu1 : '[' ∉ url) (hu2 : ']' ∉ url) :
    ∃ j, urljoinL base url = .ok j ∧ '[' ∉ j ∧ ']' ∉ j := by
  rw [urljoinL]
  split
  · exact ⟨url, rfl, hu1, hu2⟩
  · split
    · exact ⟨base, rfl, hb1, hb2⟩
    · obtain ⟨b, hbp⟩ := urlparseL_ok_of_no_brackets base [] hb1 hb2
      rw [hbp]
      obtain ⟨bl1, bl2, bl3, bl4, bl5, bl6⟩ :=
        urlparseL_ok_not_mem (t := '[') (by simp) hbp hb1 (by simp)
      obtain ⟨br1, br2, br3, br4, br5, br6⟩ :=
        urlparseL_ok_not_mem (t := ']') (by simp) hbp hb2 (by simp)
      dsimp only
      obtain ⟨r, hrp⟩ := urlparseL_ok_of_no_brackets url b.scheme hu1 hu2
      rw [hrp]
      dsimp only
      obtain ⟨rl1, rl2, rl3, rl4, rl5, rl6⟩ :=
        urlparseL_ok_not_mem (t := '[') (by simp) hrp hu1 bl1
      obtain ⟨rr1, rr2, rr3, rr4, rr5, rr6⟩ :=
        urlparseL_ok_not_mem (t := ']') (by simp) hrp hu2 br1
      refine ⟨joinParsed b r url, rfl, ?_, ?_⟩
      · exact joinParsed_not_mem bl2 bl3 bl4 bl5 rl1 rl2 rl3 rl4 rl5 rl6 hu1
          ⟨by decide, by decide, by decide, by decide, fun h => absurd h (by decide)⟩
      · exact joinParsed_not_mem br2 br3 br4 br5 rr1 rr2 rr3 rr4 rr5 rr6 hu2
          ⟨by decide, by decide, by decide, by decide, fun h => absurd h (by decide)⟩

theorem urldefragL_ok_no_brackets {l : List Char} (h1 : '[' ∉ l) (h2 : ']' ∉ l) :
    ∃ d fr, urldefragL l = .ok (d, fr) ∧ '[' ∉ d ∧ ']' ∉ d := by
  rw [urldefragL]
  split
  · obtain ⟨p, hp⟩ := urlparseL_ok_of_no_brackets l [] h1 h2
    rw [hp]
    obtain ⟨pl1, pl2, pl3, pl4, pl5, _⟩ :=
      urlparseL_ok_not_mem (t := '[') (by simp) hp h1 (by simp)
    obtain ⟨pr1, pr2, pr3, pr4, pr5, _⟩ :=
      urlparseL_ok_not_mem (t := ']') (by simp) hp h2 (by simp)
    refine ⟨_, _, rfl, ?_, ?_⟩
    · exact @urlunparseL_not_mem ⟨p.scheme, p.netloc, p.path, p.params, p.query, []⟩ '['
        pl1 pl2 pl3 pl4 pl5 (by simp)
        ⟨by decide, by decide, by decide, by decide, fun _ => rfl⟩
    · exact @urlunparseL_not_mem ⟨p.scheme, p.netloc, p.path, p.params, p.query, []⟩ ']'
        pr1 pr2 pr3 pr4 pr5 (by simp)
        ⟨by decide, by decide, by decide, by decide, fun _ => rfl⟩
  · exact ⟨l, [], rfl, h1, h2⟩

/-- C6 counterexample: a candidate whose authority contains an unmatched
square bracket makes `urllib.parse.urlparse` raise
`ValueError("Invalid IPv6 URL")` inside `filter_url`, which propagates —
`filter_url` is not total and malformed input is not uniformly mapped to
`None`. -/
theorem claim_C6_cex :
    UrlFilterer.filter_url ⟨none, none, none, none⟩ "http://a/" "http://[x" =
      .error "Invalid IPv6 URL" := rfl

/-- C6 (amended): `filter_url` is not total — the underlying URL parser's
authority validation can raise (the counterexample exhibits
`ValueError("Invalid IPv6 URL")` for an unmatched `[`), and `filter_url`
propagates the exception instead of mapping it to `None`.  What does hold:
on every pair of inputs containing no square bracket at all, `filter_url`
returns a value and never raises. -/
theorem claim_C6_amended (f : UrlFilterer) (base url : String)
    (hb1 : '[' ∉ base.toList) (hb2 : ']' ∉ base.toList)
    (hu1 : '[' ∉ url.toList) (hu2 : ']' ∉ url.toList) :
    ∃ r, f.filter_url base url = .ok r := by
  obtain ⟨j, hj, hj1, hj2⟩ := urljoinL_ok_no_brackets hb1 hb2 hu1 hu2
  obtain ⟨d2, fr, hd, hd1, hd2'⟩ := urldefragL_ok_no_brackets hj1 hj2
  obtain ⟨p, hp⟩ := urlparseL_ok_of_no_brackets d2 [] hd1 hd2'
  refine ⟨(checkRules f d2 p).map (fun l => String.mk l), ?_⟩
  simp only [UrlFilterer.filter_url, filterUrlL, hj, hd, hp]
  rfl

theorem claim_C6_amended_witness :
    ∃ r, UrlFilterer.filter_url ⟨none, none, none, none⟩ "http://h/" "a.html" = .ok r :=
  claim_C6_amended ⟨none, none, none, none⟩ "http://h/" "a.html"
    (by decide) (by decide) (by decide) (by decide)

/-- C5 counterexample: for the path `/.bashrc` the claim's extension rule
("the substring after the last `.` in the final path segment") yields
`.bashrc`, which is not in the set `allowedFileExtensions = {""}`, so the
claim demands rejection (`None`); but the code computes the extension with
`pathlib.Path(...).suffix`, which treats a leading dot as a hidden-file
marker and returns `""`, so `filter_url` accepts the address. -/
theorem claim_C5_cex :
    UrlFilterer.filter_url ⟨none, none, some [""], none⟩ "http://h/" "http://h/.bashrc" =
      .ok (some "http://h/.bashrc") ∧
    urljoinL "http://h/".toList "http://h/.bashrc".toList =
      .ok ("http://h/.bashrc".toList) ∧
    urldefragL ("http://h/.bashrc".toList) = .ok ("http://h/.bashrc".toList, []) ∧
    urlparseL "http://h/.bashrc".toList [] =
      .ok ⟨"http".toList, "h".toList, "/.bashrc".toList, [], [], []⟩ ∧
    specExtension "/.bashrc".toList = ".bashrc".toList ∧
    String.mk (specExtension "/.bashrc".toList) ∉ ([""] : List String) ∧
    pathSuffix "/.bashrc".toList = "".toList := by
  refine ⟨rfl, rfl, rfl, rfl, rfl, by decide, rfl⟩

/-- C5 (amended): when no step of the pipeline raises, `filter_url` returns
`None` iff one of the four set rules rejects the resolved, fragment-stripped
address — scheme not allowed, netloc not allowed, blocked substring present,
or the path's extension not allowed, where the extension is computed by
`pathlib` suffix semantics (the substring from the last `.` of the last
non-empty, non-`.` path segment, unless that dot is the segment's first or
last character, in which case the empty string) — and otherwise returns that
resolved, fragment-stripped address; an unset (`None`) configuration field
imposes no restriction. -/
theorem claim_C5_amended (f : UrlFilterer) (base url : String) {j u2 fr : List Char}
    {p : ParseResult} (h1 : urljoinL base.toList url.toList = .ok j)
    (h2 : urldefragL j = .ok (u2, fr)) (h3 : urlparseL u2 [] = .ok p) :
    f.filter_url base url =
      .ok (if (rejectedByScheme f p || rejectedByDomain f p || rejectedByFiletype f p
            || rejectedByBlocked f u2) = true then none else some (String.mk u2)) ∧
    (f.allowed_schemes = none → rejectedByScheme f p = false) ∧
    (f.allowed_domains = none → rejectedByDomain f p = false) ∧
    (f.allowed_filetypes = none → rejectedByFiletype f p = false) ∧
    (f.blocked_phrases = none → rejectedByBlocked f u2 = false) := by
  refine ⟨?_, ?_, ?_, ?_, ?_⟩
  · simp only [UrlFilterer.filter_url, filterUrlL, h1, h2, h3]
    rw [checkRules]
    cases hS : rejectedByScheme f p <;> cases hD : rejectedByDomain f p <;>
      cases hF : rejectedByFiletype f p <;> cases hB : rejectedByBlocked f u2 <;>
      simp [Except.map]
  · intro h; simp [rejectedByScheme, h]
  · intro h; simp [rejectedByDomain, h]
  · intro h; simp [rejectedByFiletype, h]
  · intro h; simp [rejectedByBlocked, h]

theorem claim_C5_amended_witness :
    UrlFilterer.filter_url ⟨some ["h"], some ["http"], some ["", ".html"], some ["bad"]⟩
      "http://h/x/" "a.html" = .ok (some "http://h/x/a.html") :=
  ((claim_C5_amended ⟨some ["h"], some ["http"], some ["", ".html"], some ["bad"]⟩
      "http://h/x/" "a.html" rfl rfl rfl).1).trans (by rfl)

/-! ### Fragment invariance machinery (claim C10) -/

theorem dropWhile_space_append_hash {u : List Char} (f : List Char) (hu : '#' ∉ u) :
    (u ++ '#' :: f).dropWhile (fun c => c = ' ') =
      u.dropWhile (fun c => c = ' ') ++ '#' :: f := by
  induction u with
  | nil => simp [List.dropWhile]
  | cons c cs ih =>
    have hcs : '#' ∉ cs := fun h => hu (List.mem_cons_of_mem _ h)
    by_cases hc : c = ' '
    · simp only [List.cons_append, List.dropWhile_cons]
      rw [if_pos (by simp [hc]), if_pos (by simp [hc])]
      exact ih hcs
    · simp only [List.cons_append, List.dropWhile_cons]
      rw [if_neg (by simp [hc]), if_neg (by simp [hc])]
      simp

theorem takeWhile_append_fail {P : Char → Bool} {c : Char} (hc : P c = false)
    (a f : List Char) :
    (a ++ c :: f).takeWhile P = a.takeWhile P ∧
      (a ++ c :: f).dropWhile P = a.dropWhile P ++ c :: f := by
  induction a with
  | nil =>
    constructor
    · simp [List.takeWhile_cons, hc]
    · simp [List.dropWhile_cons, hc]
  | cons x xs ih =>
    by_cases hx : P x
    · constructor
      · simp only [List.cons_append, List.takeWhile_cons, hx, ih.1]
      · simp only [List.cons_append, List.dropWhile_cons, hx, if_true, ih.2]
    · have hx2 : P x = false := by simpa using hx
      constructor
      · simp [List.cons_append, List.takeWhile_cons, hx2]
      · simp [List.cons_append, List.dropWhile_cons, hx2]

theorem schemeSplit_append_hash {u : List Char} (f d : List Char) (_hu : '#' ∉ u) :
    schemeSplit (u ++ '#' :: f) d =
      ((schemeSplit u d).1, (schemeSplit u d).2 ++ '#' :: f) := by
  rw [schemeSplit, schemeSplit, splitAtFirst_append]
  cases h1 : splitAtFirst ':' u with
  | some p =>
    obtain ⟨pre, post⟩ := p
    dsimp only
    cases pre with
    | nil => rfl
    | cons c0 rest =>
      dsimp only
      split
      · rfl
      · rfl
  | none =>
    dsimp only
    cases h2 : splitAtFirst ':' ('#' :: f) with
    | none => rfl
    | some q =>
      obtain ⟨x, y⟩ := q
      dsimp only
      obtain ⟨hx, hnx⟩ := splitAtFirst_some h2
      have hxform : '#' ∈ u ++ x := by
        cases x with
        | nil => simp at hx
        | cons x0 xt =>
          simp only [List.cons_append, List.cons.injEq] at hx
          exact List.mem_append_right _ (List.mem_cons.mpr (Or.inl hx.1))
      cases hu2 : u ++ x with
      | nil => exact absurd (hu2 ▸ hxform) (by simp)
      | cons c0 rest =>
        dsimp only
        have hcond : ¬(c0.isAlpha && (c0 :: rest).all schemeChar) = true := by
          intro hcond
          have hall := (Bool.and_eq_true _ _ ▸ hcond).2
          have h3 := List.all_eq_true.mp hall '#' (hu2 ▸ hxform)
          simp [schemeChar] at h3
        rw [if_neg hcond]

theorem take_two_ne_slashes {r : List Char} (f : List Char)
    (hr : r.take 2 ≠ ['/', '/']) : (r ++ '#' :: f).take 2 ≠ ['/', '/'] := by
  cases r with
  | nil =>
    intro h
    simp only [List.nil_append] at h
    cases f <;> simp [List.take] at h
  | cons c1 rt =>
    cases rt with
    | nil =>
      intro h
      simp [List.take] at h
    | cons c2 rtt =>
      intro h
      apply hr
      simp only [List.cons_append, List.take] at h ⊢
      exact h

theorem netlocSplit_append_hash {r : List Char} (f : List Char) (_hu : '#' ∉ r) :
    netlocSplit (r ++ '#' :: f) = ((netlocSplit r).1, (netlocSplit r).2 ++ '#' :: f) := by
  simp only [netlocSplit]
  by_cases h2 : r.take 2 = ['/', '/']
  · have hlen : 2 ≤ r.length := by
      have hl := congrArg List.length h2
      rw [List.length_take] at hl
      simp at hl
      omega
    have htake : (r ++ '#' :: f).take 2 = ['/', '/'] := by
      rw [List.take_append_of_le_length hlen, h2]
    rw [if_pos h2, if_pos htake]
    have hdrop : (r ++ '#' :: f).drop 2 = r.drop 2 ++ '#' :: f :=
      List.drop_append_of_le_length hlen
    rw [hdrop]
    obtain ⟨ht, hd⟩ :=
      @takeWhile_append_fail (fun c => !netlocDelim c) '#' (by decide) (r.drop 2) f
    rw [ht, hd]
  · rw [if_neg h2, if_neg (take_two_ne_slashes f h2)]

theorem fragSplit_no_hash {r : List Char} (h : '#' ∉ r) : fragSplit r = (r, []) := by
  rw [fragSplit, splitAtFirst_none h]

theorem fragSplit_append {q : List Char} (f : List Char) (h : '#' ∉ q) :
    fragSplit (q ++ '#' :: f) = (q, f) := by
  rw [fragSplit, splitAtFirst_append, splitAtFirst_none h]
  dsimp only
  rw [splitAtFirst_cons, if_pos rfl]
  simp

theorem urlsplitL_append_hash {u : List Char} (f d : List Char) (hu : '#' ∉ u) :
    urlsplitL (u ++ '#' :: f) d =
      (urlsplitL u d).map (fun s => { s with fragment := f }) := by
  have hu2 : '#' ∉ u.dropWhile (fun c => c = ' ') :=
    fun h => hu (List.dropWhile_subset _ h)
  have hs2 : '#' ∉ (schemeSplit (u.dropWhile (fun c => c = ' ')) d).2 :=
    fun h => hu2 (schemeSplit_snd_subset _ _ h)
  have hn2 : '#' ∉ (netlocSplit (schemeSplit (u.dropWhile (fun c => c = ' ')) d).2).2 :=
    fun h => hs2 (netlocSplit_snd_subset _ h)
  simp only [urlsplitL, dropWhile_space_append_hash f hu,
    schemeSplit_append_hash f d hu2]
  rw [netlocSplit_append_hash f hs2]
  rw [fragSplit_append f hn2, fragSplit_no_hash hn2]
  split
  · rfl
  · rfl

theorem urlparseL_append_hash {u : List Char} (f d : List Char) (hu : '#' ∉ u) :
    urlparseL (u ++ '#' :: f) d =
      (urlparseL u d).map (fun p => { p with fragment := f }) := by
  rw [urlparseL, urlparseL, urlsplitL_append_hash f d hu]
  cases urlsplitL u d with
  | error e => rfl
  | ok s => rfl

theorem urlunparseL_lit_fragment (s n p pa q g : List Char) (hg : g ≠ []) :
    urlunparseL ⟨s, n, p, pa, q, g⟩ = urlunparseL ⟨s, n, p, pa, q, []⟩ ++ '#' :: g := by
  simp [urlunparseL, urlunsplitL, hg]

theorem urldefragL_no_hash {l : List Char} (h : '#' ∉ l) : urldefragL l = .ok (l, []) := by
  rw [urldefragL, if_neg h]

theorem urldefragL_append_hash {S : List Char} (f : List Char) (h : '#' ∉ S) :
    urldefragL (S ++ '#' :: f) =
      (urlparseL S []).map
        (fun p => (urlunparseL ⟨p.scheme, p.netloc, p.path, p.params, p.query, []⟩, f)) := by
  rw [urldefragL, if_pos (by simp), urlparseL_append_hash f [] h]
  cases urlparseL S [] with
  | error e => rfl
  | ok p => rfl

/-- After stripping both fragments, the defragmented results of `W#g1` and
`W#g2` coincide for a hash-free `W`. -/
theorem defrag_fst_eq_of_no_hash {W : List Char} (hW : '#' ∉ W) (g1 g2 : List Char) :
    (urldefragL (W ++ '#' :: g1)).map Prod.fst =
      (urldefragL (W ++ '#' :: g2)).map Prod.fst := by
  rw [urldefragL_append_hash g1 hW, urldefragL_append_hash g2 hW]
  cases urlparseL W [] with
  | error e => rfl
  | ok p => rfl

theorem urlunparseL_update_fragment {g : List Char} (hg : g ≠ []) (r : ParseResult) :
    urlunparseL { r with fragment := g } =
      urlunparseL { r with fragment := [] } ++ '#' :: g := by
  cases r
  exact urlunparseL_lit_fragment _ _ _ _ _ _ hg

theorem no_hash_unparse_no_frag {r : ParseResult} (h1 : '#' ∉ r.scheme)
    (h2 : '#' ∉ r.netloc) (h3 : '#' ∉ r.path) (h4 : '#' ∉ r.params)
    (h5 : '#' ∉ r.query) : '#' ∉ urlunparseL { r with fragment := [] } :=
  @urlunparseL_not_mem { r with fragment := [] } '#' h1 h2 h3 h4 h5 (by simp)
    ⟨by decide, by decide, by decide, by decide, fun _ => rfl⟩

/-- The `urljoin`-then-`urldefrag` pipeline gives the same fragment-stripped
address for `u#g1` and `u#g2`, for any hash-free `u` and nonempty `g1`,
`g2`. -/
theorem join_defrag_fst_eq (base u g1 g2 : List Char) (hu : '#' ∉ u)
    (hg1 : g1 ≠ []) (hg2 : g2 ≠ []) :
    (match urljoinL base (u ++ '#' :: g1) with
      | .error e => Except.error e
      | .ok j => (urldefragL j).map Prod.fst) =
    (match urljoinL base (u ++ '#' :: g2) with
      | .error e => Except.error e
      | .ok j => (urldefragL j).map Prod.fst) := by
  rw [urljoinL, urljoinL]
  by_cases hb : base = []
  · rw [if_pos hb, if_pos hb]
    dsimp only
    exact defrag_fst_eq_of_no_hash hu g1 g2
  · rw [if_neg hb, if_neg hb]
    have hne1 : ¬(u ++ '#' :: g1 = []) := by simp
    have hne2 : ¬(u ++ '#' :: g2 = []) := by simp
    rw [if_neg hne1, if_neg hne2]
    cases hbp : urlparseL base [] with
    | error e => rfl
    | ok b =>
      obtain ⟨b1, b2, b3, b4, b5⟩ := urlparseL_ok_no_hash hbp (by simp)
      dsimp only
      rw [urlparseL_append_hash g1 b.scheme hu, urlparseL_append_hash g2 b.scheme hu]
      cases hrp : urlparseL u b.scheme with
      | error e => rfl
      | ok r =>
        obtain ⟨r1, r2, r3, r4, r5⟩ := urlparseL_ok_no_hash hrp b1
        simp only [Except.map]
        rw [joinParsed, joinParsed]
        dsimp only
        by_cases hC1 : ¬r.scheme = b.scheme ∨ r.scheme ∉ usesRelative
        · rw [if_pos hC1, if_pos hC1]
          exact defrag_fst_eq_of_no_hash hu g1 g2
        · rw [if_neg hC1, if_neg hC1]
          by_cases hC2 : r.scheme ∈ usesNetloc ∧ ¬r.netloc = []
          · rw [if_pos hC2, if_pos hC2]
            rw [urlunparseL_update_fragment hg1 r, urlunparseL_update_fragment hg2 r]
            exact defrag_fst_eq_of_no_hash (no_hash_unparse_no_frag r1 r2 r3 r4 r5) g1 g2
          · rw [if_neg hC2, if_neg hC2]
            have hnl : '#' ∉ (if r.scheme ∈ usesNetloc then b.netloc else r.netloc) := by
              split
              · exact b2
              · exact r2
            by_cases hC3 : r.path = [] ∧ r.params = []
            · rw [if_pos hC3, if_pos hC3]
              have hq : '#' ∉ (if r.query = [] then b.query else r.query) := by
                split
                · exact b5
                · exact r5
              rw [urlunparseL_lit_fragment _ _ _ _ _ _ hg1,
                urlunparseL_lit_fragment _ _ _ _ _ _ hg2]
              exact defrag_fst_eq_of_no_hash
                (@urlunparseL_not_mem ⟨r.scheme, _, b.path, b.params, _, []⟩ '#'
                  r1 hnl b3 b4 hq (by simp)
                  ⟨by decide, by decide, by decide, by decide, fun _ => rfl⟩) g1 g2
            · rw [if_neg hC3, if_neg hC3]
              have hm : '#' ∉ mergeSegments b.path r.path :=
                mergeSegments_not_mem b3 r3 (by decide)
              rw [urlunparseL_lit_fragment _ _ _ _ _ _ hg1,
                urlunparseL_lit_fragment _ _ _ _ _ _ hg2]
              exact defrag_fst_eq_of_no_hash
                (@urlunparseL_not_mem
                  ⟨r.scheme, _, mergeSegments b.path r.path, r.params, r.query, []⟩ '#'
                  r1 hnl hm r4 r5 (by simp)
                  ⟨by decide, by decide, by decide, by decide, fun _ => rfl⟩) g1 g2

/-- `filter_url` factored through the join-then-defragment pipeline. -/
theorem filterUrlL_via (fl : UrlFilterer) (b url : List Char) :
    filterUrlL fl b url =
      (match (match urljoinL b url with
        | .error e => Except.error e
        | .ok j => (urldefragL j).map Prod.fst) with
      | .error e => Except.error e
      | .ok u2 =>
        match urlparseL u2 [] with
        | .error e => Except.error e
        | .ok p => .ok (checkRules fl u2 p)) := by
  rw [filterUrlL]
  cases urljoinL b url with
  | error e => rfl
  | ok j =>
    dsimp only
    cases urldefragL j with
    | error e => rfl
    | ok u2f => rfl

/-- C10 counterexample: appending a fragment can change `filter_url`'s
result even when the blocked substring does not occur in the fragment.  For
candidate `MAILTO:x` the mismatched scheme makes `urljoin` return the raw
string and `urldefrag` leave it untouched (no `#`), so the blocked phrase
`mailto` (lowercase) is absent and the address is accepted; for
`MAILTO:x#f` the very same passthrough string now contains `#`, so
`urldefrag` re-serializes it through `urlparse`, lowercasing the scheme, and
the blocked-phrase rule fires. -/
theorem claim_C10_cex :
    UrlFilterer.filter_url ⟨none, none, none, some ["mailto"]⟩ "http://h/" "MAILTO:x" =
      .ok (some "MAILTO:x") ∧
    "MAILTO:x#f" = "MAILTO:x" ++ "#" ++ "f" ∧
    UrlFilterer.filter_url ⟨none, none, none, some ["mailto"]⟩ "http://h/" "MAILTO:x#f" =
      .ok none ∧
    listHasSub "mailto".toList "f".toList = false ∧
    '#' ∉ "MAILTO:x".toList := by
  refine ⟨rfl, rfl, rfl, rfl, by decide⟩

/-- C10 (amended): `filter_url` is invariant under the *content* of the
candidate's fragment: for a `#`-free candidate `u` and any two nonempty
fragments, `u#f1` and `u#f2` give the same result — so a blocked substring
occurring only inside the fragment never changes the outcome relative to any
other fragment.  (Appending a fragment to the bare `u` may still change the
result, because the fragment-stripping re-serialization only happens when a
`#` is present — see the counterexample.) -/
theorem claim_C10_amended (fl : UrlFilterer) (base u f1 f2 : String)
    (hu : '#' ∉ u.toList) (h1 : f1 ≠ "") (h2 : f2 ≠ "") :
    fl.filter_url base (u ++ "#" ++ f1) = fl.filter_url base (u ++ "#" ++ f2) := by
  have hl : ∀ g : String, (u ++ "#" ++ g).toList = u.toList ++ '#' :: g.toList := by
    intro g
    show ((u ++ "#") ++ g).data = u.data ++ '#' :: g.data
    rw [String.data_append, String.data_append, List.append_assoc]
    rfl
  have hne : ∀ g : String, g ≠ "" → g.toList ≠ [] := by
    intro g hg hh
    exact hg (String.ext hh)
  rw [UrlFilterer.filter_url, UrlFilterer.filter_url, hl f1, hl f2]
  rw [filterUrlL_via, filterUrlL_via,
    join_defrag_fst_eq base.toList u.toList f1.toList f2.toList hu (hne f1 h1) (hne f2 h2)]

theorem claim_C10_amended_witness :
    UrlFilterer.filter_url ⟨none, none, none, none⟩ "http://h/" ("a" ++ "#" ++ "x") =
      UrlFilterer.filter_url ⟨none, none, none, none⟩ "http://h/" ("a" ++ "#" ++ "y") :=
  claim_C10_amended ⟨none, none, none, none⟩ "http://h/" "a" "x" "y" (by decide)
    (by decide) (by decide)

end AethricCrawler
